import Mathlib

/-!
Verification of the coordinate-map algebra of `nipy/core/reference/coordinate_map.py`.

The embedding works over exact rationals (`ℚ`): every numpy array of floats is
modelled as a `List ℚ` (a point) or a `List (List ℚ)` (a matrix, as its list of
rows), so that the algebraically exact statements of the specification can be
settled exactly.  Numpy dtypes are modelled as precision ranks (`32` for
`float32`, `64` for `float64`) carried alongside the exact values; the
promotion rule `safe_dtype` is the least upper bound (maximum) of the ranks.

The numpy functions used by the source are vectorized and act row-wise, so
functions between coordinate systems are embedded pointwise as
`List ℚ → List ℚ`; a batch evaluation is the `List.map` of such a function.
-/

/-! ### Vectors and matrices as lists (numpy arrays) -/

/-- Dot product of two rational vectors (`np.dot` on 1-d arrays).
Truncates at the shorter vector, as `List.zipWith` does. -/
def dot (u v : List ℚ) : ℚ := (List.zipWith (fun a b => a * b) u v).sum

/-- Entrywise vector sum (`+` on numpy arrays of equal shape). -/
def addVec (u v : List ℚ) : List ℚ := List.zipWith (fun a b => a + b) u v

/-- Scalar times vector (`c * arr`). -/
def scaleVec (c : ℚ) (v : List ℚ) : List ℚ := v.map (fun a => c * a)

/-- The zero vector of length `n` (`np.zeros(n)`). -/
def zeros (n : ℕ) : List ℚ := List.replicate n 0

/-- Sum of a list of vectors, each of width `w`. -/
def sumVecs (w : ℕ) (l : List (List ℚ)) : List ℚ := l.foldr addVec (zeros w)

/-- Number of columns of a matrix, read off its first row (`arr.shape[1]`). -/
def matWidth (b : List (List ℚ)) : ℕ := (b.headD []).length

/-- Row vector times matrix: the linear combination of the rows of `b` with
the coefficients of `r`.  This is row `r` of a matrix product. -/
def vecMatMul (r : List ℚ) (b : List (List ℚ)) : List ℚ :=
  sumVecs (matWidth b) (List.zipWith scaleVec r b)

/-- Matrix product (`np.dot` on 2-d arrays): row `i` of `matMul a b` is the
linear combination of the rows of `b` with the coefficients of row `i` of `a`. -/
def matMul (a b : List (List ℚ)) : List (List ℚ) := a.map (fun r => vecMatMul r b)

/-- Matrix times column vector: entry `i` is `dot` of row `i` with `v`. -/
def matVecMul (t : List (List ℚ)) (v : List ℚ) : List ℚ := t.map (fun r => dot r v)

/-- Right-associated product of a list of matrices (`M1 * (M2 * (... * Mn))`). -/
def matProdList : List (List (List ℚ)) → List (List ℚ)
  | [] => []
  | [m] => m
  | m :: rest => matMul m (matProdList rest)

/-- The homogeneous bottom row `[0, ..., 0, 1]` with `n` zeros. -/
def homRow (n : ℕ) : List ℚ := List.replicate n 0 ++ [1]

/-- A well-formed homogeneous affine matrix with `m` output and `k` input
dimensions: shape `(m+1) × (k+1)` and last row `[0, ..., 0, 1]`. -/
def wfAffineMat (m k : ℕ) (t : List (List ℚ)) : Prop :=
  t.length = m + 1 ∧ (∀ r ∈ t, r.length = k + 1) ∧ t.getLast? = some (homRow k)

instance (m k : ℕ) (t : List (List ℚ)) : Decidable (wfAffineMat m k t) := by
  unfold wfAffineMat
  exact inferInstance

/-- Modelled from the spec: `nipy.core.transforms.affines.to_matrix_vector` is
not under `src/`; the spec says the linear block `A` and translation `b` of a
homogeneous matrix `[[A, b], [0, 1]]` are extracted by dropping the last row
and splitting off the last column. -/
def to_matrix_vector (t : List (List ℚ)) : List (List ℚ) × List ℚ :=
  (t.dropLast.map List.dropLast, t.dropLast.map (fun r => r.getLastD 0))

/-- The function of an affine homogeneous matrix, exactly as the source
computes it: `np.dot(x, A.T) + b` where `(A, b) = to_matrix_vector(affine)`. -/
def affApply (affine : List (List ℚ)) (x : List ℚ) : List ℚ :=
  List.zipWith (fun r bi => dot x r + bi) (to_matrix_vector affine).1
    (to_matrix_vector affine).2

/-- The identity matrix of size `n` (`np.identity(n)`). -/
def idMat (n : ℕ) : List (List ℚ) :=
  (List.range n).map (fun i => (List.range n).map (fun j => if i = j then (1 : ℚ) else 0))

/-- Standard basis vector `e_i` of length `k` (row `i` of `np.eye(k)`). -/
def stdBasis (k i : ℕ) : List ℚ :=
  (List.range k).map (fun j => if j = i then (1 : ℚ) else 0)

/-! ### Determinant and matrix inverse (`np.linalg`) -/

/-- The minor of a matrix: delete row `p` and column `q`. -/
def minorL (l : List (List ℚ)) (p q : ℕ) : List (List ℚ) :=
  (l.eraseIdx p).map (fun r => r.eraseIdx q)

/-- Determinant by Laplace expansion along the first row. -/
def detList : List (List ℚ) → ℚ
  | [] => 1
  | r :: rest =>
    ((List.range r.length).map (fun j =>
      (-1 : ℚ) ^ j * r.getD j 0 * detList (rest.map (fun row => row.eraseIdx j)))).sum
termination_by l => l.length
decreasing_by simp [List.length_map]

/-- The inverse of a square matrix by the cofactor (adjugate) formula:
entry `(i, j)` is `(-1)^(i+j) * det(minor j i) / det`. -/
def cofInv (l : List (List ℚ)) : List (List ℚ) :=
  (List.range l.length).map (fun i => (List.range l.length).map (fun j =>
    (-1 : ℚ) ^ (i + j) * detList (minorL l j i) / detList l))

/-- Whether a matrix is square (rectangular with as many columns as rows). -/
def isSquare (l : List (List ℚ)) : Prop := ∀ r ∈ l, r.length = l.length

instance (l : List (List ℚ)) : Decidable (isSquare l) := by
  unfold isSquare
  exact inferInstance

/-- `np.linalg.inv`, exactly: `none` models the `LinAlgError` raised on a
non-square or singular matrix; otherwise the exact inverse (the source works in
floating point, the model in exact arithmetic). -/
def matInv (l : List (List ℚ)) : Option (List (List ℚ)) :=
  if isSquare l ∧ detList l ≠ 0 then some (cofInv l) else none

/-- The `n × n` Mathlib matrix of a list-of-rows matrix, for the correctness
proofs of the cofactor inverse. -/
def toMat (n : ℕ) (l : List (List ℚ)) : Matrix (Fin n) (Fin n) ℚ :=
  Matrix.of fun i j => (l.getD i []).getD j 0

/-! ### Coordinate systems (external collaborator, modelled from the spec) -/

/-- Modelled from the spec: `nipy.core.reference.coordinate_system.CoordinateSystem`
is not under `src/`.  Per the spec it holds an ordered list of axis names, a
display name (label) and a numeric precision (`coord_dtype`), modelled as a
rank: `32` for `float32`, `64` for `float64`. -/
structure CoordinateSystem where
  coord_names : List String
  name : String
  coord_dtype : ℕ
deriving DecidableEq, Repr

/-- Precision rank of numpy `float64`, the default dtype of `np.identity`. -/
def float64 : ℕ := 64

/-- Precision rank of numpy `float32`. -/
def float32 : ℕ := 32

/-- Modelled from the spec: `safe_dtype` promotion returns the least upper
bound of the given precisions (the spec: precision is a total order used for
promotion). -/
def safe_dtype (dtypes : List ℕ) : ℕ := dtypes.foldl max 0

/-- Number of axes of a coordinate system. -/
def CoordinateSystem.ndim (cs : CoordinateSystem) : ℕ := cs.coord_names.length

/-- Modelled from the spec: equality of coordinate systems compares the
composite dtype (the ordered axis names together with the precision); the
display name is not part of equality.  The spec requires strict invariant
checking across chained transforms of differing numeric precision, and the
source prints the composite dtypes on a seam mismatch. -/
def CoordinateSystem.eq (a b : CoordinateSystem) : Bool :=
  a.coord_names == b.coord_names && a.coord_dtype == b.coord_dtype

/-- Printable name of a precision rank. -/
def dtypeNameStr (d : ℕ) : String :=
  if d = 32 then "float32" else if d = 64 then "float64" else "dtype" ++ toString d

/-- Modelled from the spec: the composite dtype of a coordinate system, as
printed by the source in the seam-mismatch message of `compose` (numpy
structured dtype: axis names with the shared precision). -/
def CoordinateSystem.dtypeRepr (cs : CoordinateSystem) : String :=
  "dtype([" ++ String.intercalate ", "
    (cs.coord_names.map (fun n => "(" ++ n ++ ", " ++ dtypeNameStr cs.coord_dtype ++ ")"))
    ++ "])"

/-- Modelled from the spec: `CoordinateSystem._checked_values` validates that a
point has the dimensionality of the system (the dtype coercion is the identity
on the exact values of the model). -/
def CoordinateSystem._checked_values (cs : CoordinateSystem) (x : List ℚ) :
    Except String (List ℚ) :=
  if x.length = cs.ndim then .ok x
  else .error "data shape does not match coordinate system dimension"

/-- Modelled from the spec: constructing a coordinate system enforces the
invariant that axis names are unique, failing otherwise. -/
def CoordinateSystem.mkChecked (names : List String) (nm : String) (dtype : ℕ) :
    Except String CoordinateSystem :=
  if names.Nodup then .ok ⟨names, nm, dtype⟩
  else .error "coord_names must have distinct names"

/-- Modelled from the spec: `coordinate_system.product` concatenates the axes
of the given systems in order, labels the result "product" and promotes the
precision with `safe_dtype`. -/
def coordsys_product (css : List CoordinateSystem) : Except String CoordinateSystem :=
  match css with
  | [] => .error "product of no coordinate systems"
  | _ =>
    CoordinateSystem.mkChecked ((css.map CoordinateSystem.coord_names).flatten)
      "product" (safe_dtype (css.map CoordinateSystem.coord_dtype))

/-! ### AffineTransform -/

/-- The data of `AffineTransform`: a homogeneous matrix and the two coordinate
systems (already rebuilt at the promoted precision by `AffineTransform.create`). -/
structure AffineTransform where
  affine : List (List ℚ)
  input_coords : CoordinateSystem
  output_coords : CoordinateSystem
deriving DecidableEq

/-- `AffineTransform.__init__`: promotes the dtype of the matrix and of both
coordinate systems with `safe_dtype`, rebuilds the coordinate systems at the
promoted precision, and fails when the matrix shape is not
`(ndim_out + 1, ndim_in + 1)`.  `affine_dtype` is the precision rank of the
matrix passed in (numpy arrays carry their own dtype; exact values do not). -/
def AffineTransform.create (affine : List (List ℚ)) (affine_dtype : ℕ)
    (input_coords output_coords : CoordinateSystem) : Except String AffineTransform :=
  let dtype := safe_dtype [affine_dtype, input_coords.coord_dtype, output_coords.coord_dtype]
  let ics : CoordinateSystem := ⟨input_coords.coord_names, input_coords.name, dtype⟩
  let ocs : CoordinateSystem := ⟨output_coords.coord_names, output_coords.name, dtype⟩
  if affine.length = ocs.ndim + 1 ∧ ∀ r ∈ affine, r.length = ics.ndim + 1 then
    .ok ⟨affine, ics, ocs⟩
  else .error "coordinate lengths do not match affine matrix shape"

/-- The derived `_function` of an `AffineTransform`: `x · Aᵗ + b`. -/
def AffineTransform.function (t : AffineTransform) (x : List ℚ) : List ℚ :=
  affApply t.affine x

/-- `AffineTransform.inverse`: `np.linalg.inv` of the matrix with the
coordinate systems swapped; `none` when the matrix is singular (the source
catches `LinAlgError` and falls through to `None`).  The matrix dtype equals
the promoted coordinate dtype for transforms built by `create`, and the float
inverse preserves it.  The inner construction cannot fail for such transforms
(the inverse of a square `(n+1) × (n+1)` matrix passes the shape check), so its
error is folded into `none`. -/
def AffineTransform.inverse (t : AffineTransform) : Option AffineTransform :=
  match matInv t.affine with
  | none => none
  | some m =>
    match AffineTransform.create m t.input_coords.coord_dtype
        t.output_coords t.input_coords with
    | .ok a => some a
    | .error _ => none

/-- `AffineTransform.inverse_function`: raises `ValueError` when there is no
inverse (unlike the `inverse` property, which returns the `None` sentinel). -/
def AffineTransform.inverse_function (t : AffineTransform) :
    Except String (List ℚ → List ℚ) :=
  match t.inverse with
  | none => .error "There is no inverse for this affine"
  | some a => .ok a.function

/-! ### CoordinateMap and the tagged transform type -/

/-- The data of a generic `CoordinateMap`: a forward function, the two
coordinate systems, and an optional inverse function. -/
structure GCoordinateMap where
  function : List ℚ → List ℚ
  input_coords : CoordinateSystem
  output_coords : CoordinateSystem
  inverse_function : Option (List ℚ → List ℚ)

/-- A transform is either an `AffineTransform` or a generic `CoordinateMap`
(the source dispatches with `isinstance(x, AffineTransform)`). -/
inductive CMap where
  | affine (t : AffineTransform)
  | general (g : GCoordinateMap)

instance : Inhabited CMap :=
  ⟨.general ⟨fun x => x, ⟨[], "", float64⟩, ⟨[], "", float64⟩, none⟩⟩

def CMap.input_coords : CMap → CoordinateSystem
  | .affine t => t.input_coords
  | .general g => g.input_coords

def CMap.output_coords : CMap → CoordinateSystem
  | .affine t => t.output_coords
  | .general g => g.output_coords

/-- The forward function of a transform (`self.function`). -/
def CMap.function : CMap → (List ℚ → List ℚ)
  | .affine t => t.function
  | .general g => g.function

def CMap.isAffine : CMap → Bool
  | .affine _ => true
  | .general _ => false

/-- The homogeneous matrix of an affine transform (`[]` for a generic map;
only read under an `isAffine` guard). -/
def CMap.affMat : CMap → List (List ℚ)
  | .affine t => t.affine
  | .general _ => []

/-- `CoordinateMap.inverse`: swap the coordinate systems and the functions;
the `None` sentinel when no inverse function is available.  For an
`AffineTransform` this is matrix inversion. -/
def CMap.inverse : CMap → Option CMap
  | .affine t => (AffineTransform.inverse t).map .affine
  | .general g =>
    match g.inverse_function with
    | none => none
    | some fi => some (.general ⟨fi, g.output_coords, g.input_coords, some g.function⟩)

/-- `CoordinateMap.__call__`: validate the point against `input_coords`, apply
the function, validate the result against `output_coords`. -/
def CMap.call (c : CMap) (x : List ℚ) : Except String (List ℚ) := do
  let xv ← c.input_coords._checked_values x
  c.output_coords._checked_values (c.function xv)

/-- `__call__` with the error defaulted away; used where the source passes a
`CoordinateMap` object itself as a callable (its evaluations there are always
in range, so the default is never produced in the verified paths). -/
def CMap.callD (c : CMap) (x : List ℚ) : List ℚ := (c.call x).toOption.getD []

/-- Well-formedness of a transform, as the data model of the spec states it:
axis names are unique; an affine transform has a well-formed homogeneous
matrix of the shape fixed by its coordinate systems, both rebuilt at the one
promoted precision; a generic map's function takes points of the input
dimension to points of the output dimension. -/
def CMap.wf : CMap → Prop
  | .affine t =>
    wfAffineMat t.output_coords.ndim t.input_coords.ndim t.affine
      ∧ t.input_coords.coord_dtype = t.output_coords.coord_dtype
      ∧ t.input_coords.coord_names.Nodup ∧ t.output_coords.coord_names.Nodup
  | .general g =>
    (∀ x : List ℚ, x.length = g.input_coords.ndim →
      (g.function x).length = g.output_coords.ndim)
      ∧ g.input_coords.coord_names.Nodup ∧ g.output_coords.coord_names.Nodup

/-! ### linearize -/

/-- `linearize(function, ndimin, step, origin)`: the homogeneous matrix whose
linear block has columns `(f(origin + step·e_i) - f(origin)) / step` (the
source computes the whole block as `(y1 - y0).T / step`), whose translation
column is `f(origin)` and whose corner is `1`.  `ndimout` is `y1.shape[1]`,
the width of the evaluated batch (defaulted to the width of `f(origin)` when
`ndimin = 0`, where the source's batch is empty but keeps its numpy width). -/
def linearize (f : List ℚ → List ℚ) (ndimin : ℕ) (step : ℚ) (origin : List ℚ) :
    List (List ℚ) :=
  let b := f origin
  let y1 := (List.range ndimin).map (fun i => f (addVec (scaleVec step (stdBasis ndimin i)) origin))
  let y0 := (List.replicate ndimin origin).map f
  let ndimout := (y1.headD b).length
  ((List.range ndimout).map (fun j =>
    ((List.range ndimin).map (fun i =>
      ((y1.getD i []).getD j 0 - (y0.getD i []).getD j 0) / step)) ++ [b.getD j 0]))
    ++ [homRow ndimin]

/-! ### compose -/

/-- The seam-mismatch message of `compose`, which prints the composite dtypes
of the two coordinate systems. -/
def seamMsg (ics ocs : CoordinateSystem) : String :=
  "input and output coordinates do not match: input=" ++ ics.dtypeRepr
    ++ ", output=" ++ ocs.dtypeRepr

/-- One step of the composition loop of `compose`: check the seam, build the
composed forward and backward functions (`_compose2`), and construct the
intermediate `CoordinateMap` — whose constructor probes the forward function
on a zero batch and propagates any validation error. -/
def composeStep (m acc : CMap) : Except String CMap :=
  if CoordinateSystem.eq m.input_coords acc.output_coords then
    let fwd := fun x => m.function (acc.function x)
    let bwd : Option (List ℚ → List ℚ) :=
      match m.inverse, acc.inverse with
      | some i1, some i2 => some (fun y => i2.function (i1.function y))
      | _, _ => none
    let g : CMap := .general ⟨fwd, acc.input_coords, m.output_coords, bwd⟩
    match g.call (zeros acc.input_coords.ndim) with
    | .ok _ => .ok g
    | .error e => .error e
  else .error (seamMsg m.input_coords acc.output_coords)

/-- The composition loop: fold `composeStep` over the transforms from the
second-to-last leftwards, starting from the last. -/
def composeAux : List CMap → CMap → Except String CMap
  | [], acc => .ok acc
  | m :: rest, acc => do
    let acc' ← composeAux rest acc
    composeStep m acc'

/-- `compose(*cmaps)`: right-to-left functional composition; when every
operand is an `AffineTransform`, the composed map is passed (as a callable,
i.e. through `__call__`) to `linearize` and rebuilt as an `AffineTransform`. -/
def compose (cmaps : List CMap) : Except String CMap :=
  match cmaps.getLast? with
  | none => .error "compose of no maps"
  | some last => do
    let acc ← composeAux cmaps.dropLast last
    if cmaps.all CMap.isAffine then
      let n := acc.input_coords.ndim
      let aff := linearize (CMap.callD acc) n 1 (zeros n)
      let t ← AffineTransform.create aff acc.output_coords.coord_dtype
        acc.input_coords acc.output_coords
      pure (.affine t)
    else pure acc

/-! ### product -/

/-- The function of `product`: slice the input point by the cumulative input
dimensions and concatenate the results of each transform applied (through
`__call__`) to its slice (`np.hstack`). -/
def productFunction : List CMap → List ℚ → List ℚ
  | [], _ => []
  | c :: rest, x =>
    c.callD (x.take c.input_coords.ndim) ++ productFunction rest (x.drop c.input_coords.ndim)

/-- `product(*cmaps)`: concatenate the coordinate systems; when every operand
is an `AffineTransform`, linearize the sliced function into one affine matrix;
otherwise build a generic `CoordinateMap` (whose constructor probes the
function on a zero batch). -/
def product (cmaps : List CMap) : Except String CMap := do
  let incoords ← coordsys_product (cmaps.map CMap.input_coords)
  let outcoords ← coordsys_product (cmaps.map CMap.output_coords)
  let f := productFunction cmaps
  if cmaps.all CMap.isAffine then
    let aff := linearize f incoords.ndim 1 (zeros incoords.ndim)
    let t ← AffineTransform.create aff incoords.coord_dtype incoords outcoords
    pure (.affine t)
  else
    let g : CMap := .general ⟨f, incoords, outcoords, none⟩
    match g.call (zeros incoords.ndim) with
    | .ok _ => pure g
    | .error e => .error e

/-! ### reordered_input / renamed_input -/

/-- The permutation matrix built by `reordered_input`: a zero
`(ndim+1) × (ndim+1)` matrix with the homogeneous corner set to `1` and
`perm[order[i], i] = 1` for each position `i` of the order. -/
def permMatrix (ndim : ℕ) (ord : List ℕ) : List (List ℚ) :=
  (List.range (ndim + 1)).map (fun r =>
    (List.range (ndim + 1)).map (fun c =>
      if r = ndim ∧ c = ndim then (1 : ℚ)
      else if c < ord.length ∧ ord.getD c (ndim + 1) = r then 1 else 0))

/-- The `order` argument of `reordered_input`: omitted, a sequence of axis
names, or a sequence of integer positions (the source dispatches on the type
of the first element). -/
inductive ReorderArg where
  | omitted
  | names (l : List String)
  | ints (l : List ℕ)

/-- `CoordinateMap.reordered_input(order, name)`: build the permutation
`AffineTransform` from the new (permuted) input coordinate system to the
current one and compose `self` with it. -/
def reordered_input (c : CMap) (order : ReorderArg) (nm : String) : Except String CMap := do
  let nm := if nm = "" then c.input_coords.name else nm
  let ndim := c.input_coords.ndim
  let ord : List ℕ :=
    match order with
    | .omitted => (List.range ndim).reverse
    | .names strs => strs.map (fun s => c.input_coords.coord_names.indexOf s)
    | .ints ints => ints
  let newaxes := ord.map (fun i => c.input_coords.coord_names.getD i "")
  let newincoords ← CoordinateSystem.mkChecked newaxes nm c.input_coords.coord_dtype
  let perm := permMatrix ndim ord
  let A ← AffineTransform.create perm c.input_coords.coord_dtype newincoords c.input_coords
  compose [c, .affine A]

/-- `CoordinateMap.renamed_input(newnames, name)`: reject any key that is not
a current input axis name; otherwise substitute the mapped names in place and
compose `self` with an identity `AffineTransform` built from `np.identity`
(whose dtype is `float64`: the source, unlike `reordered_input`, does not cast
it to the input precision). -/
def renamed_input (c : CMap) (newnames : List (String × String)) (nm : String) :
    Except String CMap := do
  let nm := if nm = "" then c.input_coords.name else nm
  match (newnames.map Prod.fst).find? (fun n => !(c.input_coords.coord_names.contains n)) with
  | some n => .error ("no input coordinate named " ++ n)
  | none =>
    let new_coord_names := c.input_coords.coord_names.map (fun n =>
      match newnames.lookup n with
      | some v => v
      | none => n)
    let new_input_coords ← CoordinateSystem.mkChecked new_coord_names nm
      c.input_coords.coord_dtype
    let ident ← AffineTransform.create (idMat (c.input_coords.ndim + 1)) float64
      new_input_coords c.input_coords
    compose [c, .affine ident]

/-! ### A store of matrices, for the aliasing contract of `copy` -/

/-- A heap of numpy arrays: matrices addressed by reference. -/
structure MatStore where
  mats : List (List (List ℚ))

/-- Read the matrix at a reference. -/
def MatStore.read (s : MatStore) (r : ℕ) : List (List ℚ) := s.mats.getD r []

/-- Allocate a fresh matrix, returning the new store and the fresh reference. -/
def MatStore.alloc (s : MatStore) (m : List (List ℚ)) : MatStore × ℕ :=
  (⟨s.mats ++ [m]⟩, s.mats.length)

/-- Mutate entry `(i, j)` of the matrix at reference `r` in place
(`arr[i, j] = v`). -/
def MatStore.write (s : MatStore) (r i j : ℕ) (v : ℚ) : MatStore :=
  ⟨s.mats.set r ((s.read r).set i (((s.read r).getD i []).set j v))⟩

/-- An `AffineTransform` whose matrix lives in a `MatStore`, for stating the
ownership/aliasing contract of `copy`. -/
structure AffineTransformRef where
  affine_ref : ℕ
  input_coords : CoordinateSystem
  output_coords : CoordinateSystem

/-- `AffineTransform.copy()`: `AffineTransform(self._affine.copy(), ...)` —
allocate a fresh, independent copy of the matrix and keep the coordinate
systems (already at the promoted precision, so the constructor rebuilds them
unchanged and its shape check passes for a transform built by `create`). -/
def AffineTransformRef.copy (s : MatStore) (t : AffineTransformRef) :
    MatStore × AffineTransformRef :=
  let (s', r) := s.alloc (s.read t.affine_ref)
  (s', ⟨r, t.input_coords, t.output_coords⟩)

/-! ### Chain predicates and block-diagonal matrices (for stating the claims) -/

/-- Adjacent seams all match: `cmap_i.input_coords == cmap_(i+1).output_coords`
for every adjacent pair, under the coordinate-system equality of the source. -/
def chained : List CMap → Bool
  | a :: b :: rest => CoordinateSystem.eq a.input_coords b.output_coords && chained (b :: rest)
  | _ => true

/-- The mathematical right-to-left composite of the forward functions of a
nonempty chain `ms ++ [acc]`. -/
def chainFun : List CMap → CMap → List ℚ → List ℚ
  | [], acc, x => acc.function x
  | m :: rest, acc, x => m.function (chainFun rest acc x)

/-- Block-diagonal combination of two homogeneous affine matrices:
`[[A1, 0, b1], [0, A2, b2], [0, 0, 1]]`. -/
def blockCombine (t u : List (List ℚ)) : List (List ℚ) :=
  (t.dropLast.map (fun r => r.dropLast ++ zeros (matWidth u - 1) ++ [r.getLastD 0]))
    ++ (u.dropLast.map (fun r => zeros (matWidth t - 1) ++ r))
    ++ [homRow ((matWidth t - 1) + (matWidth u - 1))]

/-- Right-associated block-diagonal combination of a list of homogeneous
affine matrices. -/
def blockDiagList : List (List (List ℚ)) → List (List ℚ)
  | [] => [[1]]
  | [t] => t
  | t :: rest => blockCombine t (blockDiagList rest)

/-! ### Basic vector lemmas -/

theorem dot_nil_left (v : List ℚ) : dot [] v = 0 := rfl

theorem dot_nil_right (u : List ℚ) : dot u [] = 0 := by
  cases u <;> rfl

theorem dot_comm (u v : List ℚ) : dot u v = dot v u := by
  induction u generalizing v with
  | nil => rw [dot_nil_left, dot_nil_right]
  | cons a u ih =>
    cases v with
    | nil => rw [dot_nil_left, dot_nil_right]
    | cons b v =>
      simp only [dot, List.zipWith_cons_cons, List.sum_cons] at *
      rw [mul_comm]
      exact congrArg _ (ih v)

theorem addVec_length (u v : List ℚ) : (addVec u v).length = min u.length v.length := by
  simp [addVec]

theorem scaleVec_length (c : ℚ) (v : List ℚ) : (scaleVec c v).length = v.length := by
  simp [scaleVec]

theorem zeros_length (n : ℕ) : (zeros n).length = n := by
  simp [zeros]

theorem dot_zeros_left (n : ℕ) (v : List ℚ) : dot (zeros n) v = 0 := by
  induction n generalizing v with
  | zero => rfl
  | succ k ih =>
    cases v with
    | nil => exact dot_nil_right _
    | cons b v =>
      simp only [zeros, List.replicate_succ, dot, List.zipWith_cons_cons, List.sum_cons]
      rw [zero_mul, zero_add]
      exact ih v

theorem dot_zeros_right (n : ℕ) (u : List ℚ) : dot u (zeros n) = 0 := by
  rw [dot_comm]; exact dot_zeros_left n u

theorem dot_append (u1 u2 v1 v2 : List ℚ) (h : u1.length = v1.length) :
    dot (u1 ++ u2) (v1 ++ v2) = dot u1 v1 + dot u2 v2 := by
  simp only [dot]
  rw [List.zipWith_append _ _ _ _ _ h, List.sum_append]

theorem dot_addVec_left (u s v : List ℚ) (h : u.length = s.length) :
    dot (addVec u s) v = dot u v + dot s v := by
  induction u generalizing s v with
  | nil =>
    cases s with
    | nil => simp [addVec, dot]
    | cons => simp at h
  | cons a u ih =>
    cases s with
    | nil => simp at h
    | cons b s =>
      cases v with
      | nil => simp [dot_nil_right, addVec]
      | cons c v =>
        have hus : u.length = s.length := by simpa using h
        simp only [addVec, List.zipWith_cons_cons, dot, List.sum_cons]
        rw [add_mul]
        have := ih s v hus
        simp only [addVec, dot] at this
        rw [this]; ring

theorem dot_scaleVec_left (c : ℚ) (u v : List ℚ) :
    dot (scaleVec c u) v = c * dot u v := by
  induction u generalizing v with
  | nil => simp [scaleVec, dot]
  | cons a u ih =>
    cases v with
    | nil => simp [dot_nil_right]
    | cons b v =>
      simp only [scaleVec, List.map_cons, dot, List.zipWith_cons_cons, List.sum_cons] at *
      rw [mul_add, ih v, mul_assoc]

theorem addVec_zeros_right (v : List ℚ) (n : ℕ) (h : v.length = n) :
    addVec v (zeros n) = v := by
  induction v generalizing n with
  | nil => rfl
  | cons a v ih =>
    cases n with
    | zero => simp at h
    | succ k =>
      simp only [zeros, List.replicate_succ, addVec, List.zipWith_cons_cons, add_zero]
      have := ih k (by simpa using h)
      simp only [addVec, zeros] at this
      rw [this]

theorem addVec_zeros_left (v : List ℚ) (n : ℕ) (h : v.length = n) :
    addVec (zeros n) v = v := by
  induction v generalizing n with
  | nil => cases n <;> rfl
  | cons a v ih =>
    cases n with
    | zero => simp at h
    | succ k =>
      simp only [zeros, List.replicate_succ, addVec, List.zipWith_cons_cons, zero_add]
      have := ih k (by simpa using h)
      simp only [addVec, zeros] at this
      rw [this]

theorem map_range_getD {α : Type} (r : List α) (k : ℕ) (d : α) (h : r.length = k) :
    (List.range k).map (fun i => r.getD i d) = r := by
  subst h
  apply List.ext_getElem
  · simp
  · intro i h1 h2
    simp [List.getD_eq_getElem?_getD, List.getElem?_eq_getElem h2]

theorem getD_range (k i : ℕ) (h : i < k) : (List.range k).getD i 0 = i := by
  rw [List.getD_eq_getElem?_getD, List.getElem?_eq_getElem (by simpa using h),
    List.getElem_range]
  rfl

theorem stdBasis_zero (n : ℕ) : stdBasis (n + 1) 0 = 1 :: zeros n := by
  simp only [stdBasis, List.range_succ_eq_map, List.map_cons, if_pos rfl, List.map_map, zeros]
  congr 1
  have : ((fun j => if j = 0 then (1 : ℚ) else 0) ∘ Nat.succ) = fun _ => (0 : ℚ) := by
    funext j; simp
  rw [this, List.map_const', List.length_range]

theorem stdBasis_succ (n m : ℕ) : stdBasis (n + 1) (m + 1) = 0 :: stdBasis n m := by
  simp only [stdBasis, List.range_succ_eq_map, List.map_cons, List.map_map]
  refine List.cons_eq_cons.mpr ⟨by simp, ?_⟩
  congr 1
  funext j
  simp [Function.comp]

theorem dot_stdBasis (k i : ℕ) (v : List ℚ) (hik : i < k) (hv : v.length = k) :
    dot (stdBasis k i) v = v.getD i 0 := by
  induction k generalizing i v with
  | zero => omega
  | succ n ih =>
    cases v with
    | nil => simp at hv
    | cons b v =>
      cases i with
      | zero =>
        rw [stdBasis_zero]
        simp only [dot, List.zipWith_cons_cons, List.sum_cons, one_mul, List.getD_cons_zero]
        have : dot (zeros n) v = 0 := dot_zeros_left n v
        simp only [dot] at this
        rw [this, add_zero]
      | succ m =>
        rw [stdBasis_succ]
        simp only [dot, List.zipWith_cons_cons, List.sum_cons, zero_mul, zero_add,
          List.getD_cons_succ]
        have := ih m v (by omega) (by simpa using hv)
        simpa [dot] using this

/-! ### sumVecs and vecMatMul lemmas -/

theorem sumVecs_length (w : ℕ) (l : List (List ℚ)) (h : ∀ u ∈ l, u.length = w) :
    (sumVecs w l).length = w := by
  induction l with
  | nil => simp [sumVecs, zeros]
  | cons u l ih =>
    simp only [sumVecs, List.foldr_cons]
    rw [addVec_length]
    have h1 : u.length = w := h u (by simp)
    have h2 : (sumVecs w l).length = w := ih (fun v hv => h v (by simp [hv]))
    simp only [sumVecs] at h2
    omega

theorem dot_sumVecs (w : ℕ) (l : List (List ℚ)) (v : List ℚ)
    (h : ∀ u ∈ l, u.length = w) :
    dot (sumVecs w l) v = (l.map (fun u => dot u v)).sum := by
  induction l with
  | nil => simp [sumVecs, dot_zeros_left]
  | cons u l ih =>
    simp only [sumVecs, List.foldr_cons, List.map_cons, List.sum_cons]
    have h1 : u.length = (l.foldr addVec (zeros w)).length := by
      have := sumVecs_length w l (fun x hx => h x (by simp [hx]))
      simp only [sumVecs] at this
      rw [this]; exact h u (by simp)
    rw [dot_addVec_left _ _ _ h1]
    have := ih (fun x hx => h x (by simp [hx]))
    simp only [sumVecs] at this
    rw [this]

theorem zipWith_scaleVec_mem (r : List ℚ) (b : List (List ℚ)) (u : List ℚ)
    (hu : u ∈ List.zipWith scaleVec r b) : ∃ c v, v ∈ b ∧ u = scaleVec c v := by
  induction r generalizing b with
  | nil => simp at hu
  | cons a r ih =>
    cases b with
    | nil => simp at hu
    | cons w b =>
      simp only [List.zipWith_cons_cons, List.mem_cons] at hu
      rcases hu with h | h
      · exact ⟨a, w, by simp, h⟩
      · obtain ⟨c, v, hv, rfl⟩ := ih b h
        exact ⟨c, v, by simp [hv], rfl⟩

theorem vecMatMul_length (r : List ℚ) (b : List (List ℚ)) (w : ℕ)
    (hb : ∀ u ∈ b, u.length = w) (hne : b ≠ []) :
    (vecMatMul r b).length = w := by
  have hw : matWidth b = w := by
    cases b with
    | nil => exact absurd rfl hne
    | cons u b => simpa [matWidth] using hb u (by simp)
  rw [vecMatMul, hw]
  refine sumVecs_length w _ ?_
  intro u hu
  obtain ⟨c, v, hv, rfl⟩ := zipWith_scaleVec_mem r b u hu
  rw [scaleVec_length]
  exact hb v hv

theorem dot_vecMatMul (r : List ℚ) (b : List (List ℚ)) (v : List ℚ) (w : ℕ)
    (hb : ∀ u ∈ b, u.length = w) :
    dot (vecMatMul r b) v = dot r (matVecMul b v) := by
  induction r generalizing b with
  | nil =>
    simp [vecMatMul, sumVecs, dot_zeros_left, dot_nil_left]
  | cons c r ih =>
    cases b with
    | nil =>
      simp [vecMatMul, sumVecs, matWidth, zeros, matVecMul, dot_nil_right, dot]
    | cons row b =>
      have hrow : row.length = w := hb row (List.mem_cons_self _ _)
      have hbb : ∀ u ∈ b, u.length = w := fun u hu => hb u (List.mem_cons_of_mem _ hu)
      have hmw : matWidth (row :: b) = w := by simp [matWidth, hrow]
      have hS : ∀ u ∈ List.zipWith scaleVec r b, u.length = w := by
        intro u hu
        obtain ⟨cc, vv, hvv, rfl⟩ := zipWith_scaleVec_mem r b u hu
        rw [scaleVec_length]; exact hbb vv hvv
      have hlenS : (sumVecs w (List.zipWith scaleVec r b)).length = w := sumVecs_length _ _ hS
      have step1 : vecMatMul (c :: r) (row :: b)
          = addVec (scaleVec c row) (sumVecs w (List.zipWith scaleVec r b)) := by
        simp [vecMatMul, hmw, sumVecs]
      rw [step1, dot_addVec_left _ _ v (by rw [scaleVec_length, hrow, hlenS]),
        dot_scaleVec_left]
      have rhs : dot (c :: r) (matVecMul (row :: b) v)
          = c * dot row v + dot r (matVecMul b v) := by
        simp [matVecMul, dot, List.zipWith_cons_cons]
      rw [rhs]
      congr 1
      cases b with
      | nil =>
        simp [List.zipWith_nil_right, sumVecs, dot_zeros_left, matVecMul, dot_nil_right]
      | cons row2 b2 =>
        have hsv : sumVecs w (List.zipWith scaleVec r (row2 :: b2))
            = vecMatMul r (row2 :: b2) := by
          simp [vecMatMul, matWidth, hbb row2 (by simp)]
        rw [hsv]
        exact ih (row2 :: b2) hbb

/-! ### affApply and homogeneous coordinates -/

theorem zipWith_map_same {α β γ δ : Type} (f : β → γ → δ) (g : α → β) (h : α → γ)
    (l : List α) :
    List.zipWith f (l.map g) (l.map h) = l.map (fun r => f (g r) (h r)) := by
  induction l with
  | nil => rfl
  | cons a l ih => simp [ih]

theorem affApply_eq_map (t : List (List ℚ)) (x : List ℚ) :
    affApply t x = t.dropLast.map (fun r => dot x r.dropLast + r.getLastD 0) := by
  simp only [affApply, to_matrix_vector]
  exact zipWith_map_same _ _ _ _

theorem affApply_length (t : List (List ℚ)) (x : List ℚ) :
    (affApply t x).length = t.dropLast.length := by
  rw [affApply_eq_map, List.length_map]

theorem scaleVec_one (u : List ℚ) : scaleVec 1 u = u := by
  simp [scaleVec]

theorem scaleVec_zero (u : List ℚ) : scaleVec 0 u = zeros u.length := by
  simp [scaleVec, zeros]

theorem getLastD_eq_getLast (l : List ℚ) (h : l ≠ []) (d : ℚ) :
    l.getLastD d = l.getLast h := by
  rw [List.getLastD_eq_getLast?, List.getLast?_eq_getLast l h, Option.getD_some]

theorem wf_decomp {m k : ℕ} {t : List (List ℚ)} (h : wfAffineMat m k t) :
    t.dropLast ++ [homRow k] = t := by
  have hne : t ≠ [] := by
    intro heq
    have h1 := h.1
    rw [heq] at h1
    simp only [List.length_nil] at h1
    omega
  have hlast : t.getLast hne = homRow k := by
    have := h.2.2
    rw [List.getLast?_eq_getLast t hne] at this
    exact Option.some_injective _ this
  rw [← hlast]
  exact List.dropLast_append_getLast hne

theorem wf_dropLast_length {m k : ℕ} {t : List (List ℚ)} (h : wfAffineMat m k t) :
    t.dropLast.length = m := by
  rw [List.length_dropLast, h.1]
  omega

theorem wf_row_length {m k : ℕ} {t : List (List ℚ)} (h : wfAffineMat m k t) :
    ∀ r ∈ t.dropLast, r.length = k + 1 := by
  intro r hr
  exact h.2.1 r (List.dropLast_sublist t |>.subset hr)

theorem dot_single (a b : ℚ) : dot [a] [b] = a * b := by
  simp [dot]

theorem matVecMul_hom {m k : ℕ} {t : List (List ℚ)} (hwf : wfAffineMat m k t)
    (x : List ℚ) (hx : x.length = k) :
    matVecMul t (x ++ [1]) = affApply t x ++ [1] := by
  conv_lhs => rw [matVecMul, ← wf_decomp hwf]
  rw [List.map_append, List.map_singleton]
  have hlastrow : dot (homRow k) (x ++ [1]) = 1 := by
    rw [homRow, dot_append _ _ _ _ (by simp [hx]), dot_single, one_mul]
    have := dot_zeros_left k x
    simp only [zeros] at this
    rw [this, zero_add]
  rw [hlastrow, affApply_eq_map]
  congr 1
  apply List.map_congr_left
  intro r hr
  have hrlen : r.length = k + 1 := wf_row_length hwf r hr
  have hrne : r ≠ [] := by
    intro heq; rw [heq] at hrlen; simp at hrlen
  conv_lhs => rw [← List.dropLast_append_getLast hrne]
  rw [dot_append _ _ _ _ (by rw [List.length_dropLast, hrlen, hx]; rfl), dot_single, mul_one,
    getLastD_eq_getLast r hrne 0, dot_comm]

theorem foldr_addVec_zeros (w : ℕ) (l : List (List ℚ)) (h : ∀ u ∈ l, u = zeros w)
    (v : List ℚ) (hv : v.length = w) : l.foldr addVec v = v := by
  induction l with
  | nil => rfl
  | cons u l ih =>
    simp only [List.foldr_cons]
    rw [ih (fun x hx => h x (by simp [hx])), h u (by simp), addVec_zeros_left v w hv]

theorem zipWith_scaleVec_zeros (k : ℕ) (d : List (List ℚ)) :
    List.zipWith scaleVec (List.replicate k (0 : ℚ)) d = (d.take k).map (scaleVec 0) := by
  induction k generalizing d with
  | zero => simp
  | succ n ih =>
    cases d with
    | nil => simp
    | cons u d => simp [List.replicate_succ, ih]

theorem vecMatMul_homRow {k n : ℕ} {t2 : List (List ℚ)} (h2 : wfAffineMat k n t2) :
    vecMatMul (homRow k) t2 = homRow n := by
  have hmw : matWidth t2 = n + 1 := by
    cases ht : t2 with
    | nil =>
      have h1 := h2.1
      rw [ht] at h1
      simp only [List.length_nil] at h1
      omega
    | cons u d =>
      have := h2.2.1 u (by rw [ht]; simp)
      simp [matWidth, this]
  have hd : t2.dropLast.length = k := wf_dropLast_length h2
  have hsplit : List.zipWith scaleVec (homRow k) t2
      = ((t2.dropLast.take k).map (scaleVec 0)) ++ [scaleVec 1 (homRow n)] := by
    conv_lhs => rw [homRow, ← wf_decomp h2]
    rw [List.zipWith_append _ _ _ _ _ (by simp [hd])]
    simp [zipWith_scaleVec_zeros]
  rw [vecMatMul, hmw, hsplit, scaleVec_one, sumVecs, List.foldr_append]
  have hinner : List.foldr addVec (zeros (n + 1)) [homRow n] = homRow n := by
    simp only [List.foldr_cons, List.foldr_nil]
    exact addVec_zeros_right _ _ (by simp [homRow])
  rw [hinner]
  apply foldr_addVec_zeros
  · intro u hu
    simp only [List.mem_map] at hu
    obtain ⟨r, hr, rfl⟩ := hu
    rw [scaleVec_zero]
    have hmem : r ∈ t2.dropLast := List.mem_of_mem_take hr
    rw [wf_row_length h2 r hmem]
  · simp [homRow]

theorem wf_ne_nil {m k : ℕ} {t : List (List ℚ)} (h : wfAffineMat m k t) : t ≠ [] := by
  intro heq
  have h1 := h.1
  rw [heq] at h1
  simp only [List.length_nil] at h1
  omega

theorem wf_matMul {m k n : ℕ} {t1 t2 : List (List ℚ)}
    (h1 : wfAffineMat m k t1) (h2 : wfAffineMat k n t2) :
    wfAffineMat m n (matMul t1 t2) := by
  refine ⟨by rw [matMul, List.length_map, h1.1], ?_, ?_⟩
  · intro r hr
    rw [matMul] at hr
    obtain ⟨u, _, rfl⟩ := List.mem_map.mp hr
    exact vecMatMul_length u t2 (n + 1) h2.2.1 (wf_ne_nil h2)
  · rw [matMul]
    conv_lhs => rw [← wf_decomp h1]
    rw [List.map_append, List.map_singleton, List.getLast?_concat]
    rw [vecMatMul_homRow h2]

theorem matVecMul_matMul (t1 t2 : List (List ℚ)) (v : List ℚ) (w : ℕ)
    (hb : ∀ u ∈ t2, u.length = w) :
    matVecMul (matMul t1 t2) v = matVecMul t1 (matVecMul t2 v) := by
  simp only [matVecMul, matMul, List.map_map]
  apply List.map_congr_left
  intro r _
  exact dot_vecMatMul r t2 v w hb

theorem affApply_comp {m k n : ℕ} {t1 t2 : List (List ℚ)}
    (h1 : wfAffineMat m k t1) (h2 : wfAffineMat k n t2)
    (x : List ℚ) (hx : x.length = n) :
    affApply t1 (affApply t2 x) = affApply (matMul t1 t2) x := by
  have hax : (affApply t2 x).length = k := by
    rw [affApply_length, wf_dropLast_length h2]
  have e1 := matVecMul_hom h1 (affApply t2 x) hax
  have e2 := matVecMul_hom h2 x hx
  have e3 := matVecMul_hom (wf_matMul h1 h2) x hx
  have e4 := matVecMul_matMul t1 t2 (x ++ [1]) (n + 1) h2.2.1
  have : affApply t1 (affApply t2 x) ++ [1] = affApply (matMul t1 t2) x ++ [1] := by
    rw [← e1, ← e2, ← e4, e3]
  exact List.append_inj_left' this rfl

/-! ### linearize recovers a well-formed affine matrix (at the zero origin) -/

theorem getD_map_lt {α β : Type} (f : α → β) (l : List α) (j : ℕ) (d : β) (d' : α)
    (hj : j < l.length) : (l.map f).getD j d = f (l.getD j d') := by
  rw [List.getD_eq_getElem?_getD, List.getElem?_eq_getElem (by simpa using hj)]
  rw [List.getElem_map, List.getD_eq_getElem?_getD, List.getElem?_eq_getElem hj]
  rfl

theorem affApply_getD {m k : ℕ} {t : List (List ℚ)} (hwf : wfAffineMat m k t)
    (x : List ℚ) (j : ℕ) (hj : j < m) :
    (affApply t x).getD j 0
      = dot x ((t.dropLast.getD j []).dropLast) + (t.dropLast.getD j []).getLastD 0 := by
  rw [affApply_eq_map]
  rw [getD_map_lt _ _ j 0 [] (by rw [wf_dropLast_length hwf]; exact hj)]

theorem dropLast_concat_getLastD (r : List ℚ) (h : r ≠ []) :
    r.dropLast ++ [r.getLastD 0] = r := by
  rw [getLastD_eq_getLast r h 0]
  exact List.dropLast_append_getLast h

theorem getD_mem_of_lt {α : Type} (l : List α) (j : ℕ) (d : α) (h : j < l.length) :
    l.getD j d ∈ l := by
  rw [List.getD_eq_getElem?_getD, List.getElem?_eq_getElem h]
  exact List.getElem_mem h

theorem linearize_affine {m k : ℕ} {t : List (List ℚ)} (hwf : wfAffineMat m k t)
    (f : List ℚ → List ℚ) (step : ℚ) (hstep : step ≠ 0)
    (hf : ∀ x : List ℚ, x.length = k → f x = affApply t x) :
    linearize f k step (zeros k) = t := by
  have hb : f (zeros k) = affApply t (zeros k) := hf _ (zeros_length k)
  have hbasis : ∀ i, i < k →
      f (addVec (scaleVec step (stdBasis k i)) (zeros k))
        = affApply t (scaleVec step (stdBasis k i)) := by
    intro i hik
    have hlen : (scaleVec step (stdBasis k i)).length = k := by
      rw [scaleVec_length, stdBasis, List.length_map, List.length_range]
    rw [addVec_zeros_right _ _ hlen, hf _ hlen]
  have hndim : (((List.range k).map (fun i =>
      f (addVec (scaleVec step (stdBasis k i)) (zeros k)))).headD (f (zeros k))).length = m := by
    cases k with
    | zero =>
      simp only [List.range_zero, List.map_nil, List.headD_nil]
      rw [hb, affApply_length, wf_dropLast_length hwf]
    | succ kk =>
      rw [List.range_succ_eq_map]
      simp only [List.map_cons, List.headD_cons]
      rw [hbasis 0 (by omega), affApply_length, wf_dropLast_length hwf]
  simp only [linearize]
  rw [hndim]
  conv_rhs => rw [← wf_decomp hwf]
  congr 1
  rw [← map_range_getD t.dropLast m [] (wf_dropLast_length hwf)]
  apply List.map_congr_left
  intro j hj
  rw [List.mem_range] at hj
  have hrjmem : t.dropLast.getD j [] ∈ t.dropLast :=
    getD_mem_of_lt _ j [] (by rw [wf_dropLast_length hwf]; exact hj)
  have hrjlen : (t.dropLast.getD j []).length = k + 1 := wf_row_length hwf _ hrjmem
  have hrjne : t.dropLast.getD j [] ≠ [] := by
    intro heq; rw [heq] at hrjlen; simp at hrjlen
  have hrjd : (t.dropLast.getD j []).dropLast.length = k := by
    rw [List.length_dropLast, hrjlen]
    omega
  have hbj : (f (zeros k)).getD j 0 = (t.dropLast.getD j []).getLastD 0 := by
    rw [hb, affApply_getD hwf _ j hj, dot_zeros_left, zero_add]
  have hy1 : ∀ i, i < k → (((List.range k).map (fun i =>
      f (addVec (scaleVec step (stdBasis k i)) (zeros k)))).getD i [])
        = affApply t (scaleVec step (stdBasis k i)) := by
    intro i hik
    rw [getD_map_lt _ _ i [] 0 (by simpa using hik), getD_range k i hik, hbasis i hik]
  have hy0 : ∀ i, i < k →
      (((List.replicate k (zeros k)).map f).getD i []) = f (zeros k) := by
    intro i hik
    rw [List.map_replicate]
    rw [List.getD_eq_getElem?_getD, List.getElem?_eq_getElem (by simpa using hik),
      List.getElem_replicate]
    rfl
  have hentry : ∀ i ∈ List.range k,
      ((((List.range k).map (fun i =>
        f (addVec (scaleVec step (stdBasis k i)) (zeros k)))).getD i []).getD j 0
        - (((List.replicate k (zeros k)).map f).getD i []).getD j 0) / step
      = (t.dropLast.getD j []).dropLast.getD i 0 := by
    intro i hik
    rw [List.mem_range] at hik
    rw [hy1 i hik, hy0 i hik, hb, affApply_getD hwf _ j hj, affApply_getD hwf _ j hj,
      dot_zeros_left, zero_add, add_sub_cancel_right, dot_scaleVec_left,
      dot_stdBasis k i _ hik hrjd, mul_div_cancel_left₀ _ hstep]
  rw [List.map_congr_left hentry, map_range_getD _ k 0 hrjd, hbj]
  exact dropLast_concat_getLastD _ hrjne

/-! ### Coordinate-system equality and transform well-formedness -/

theorem eq_spec {a b : CoordinateSystem} (h : CoordinateSystem.eq a b = true) :
    a.coord_names = b.coord_names ∧ a.coord_dtype = b.coord_dtype := by
  rw [CoordinateSystem.eq, Bool.and_eq_true, beq_iff_eq, beq_iff_eq] at h
  exact h

theorem eq_ndim {a b : CoordinateSystem} (h : CoordinateSystem.eq a b = true) :
    a.ndim = b.ndim := by
  rw [CoordinateSystem.ndim, CoordinateSystem.ndim, (eq_spec h).1]

theorem eq_refl_cs (a : CoordinateSystem) : CoordinateSystem.eq a a = true := by
  simp [CoordinateSystem.eq]

theorem wf_function_length {c : CMap} (h : c.wf) (x : List ℚ)
    (hx : x.length = c.input_coords.ndim) :
    (c.function x).length = c.output_coords.ndim := by
  cases c with
  | affine t =>
    have h1 := h.1
    simp only [CMap.function, CMap.input_coords, CMap.output_coords] at *
    rw [AffineTransform.function, affApply_length, wf_dropLast_length h1]
  | general g => exact h.1 x hx

theorem wf_nodup_input {c : CMap} (h : c.wf) : c.input_coords.coord_names.Nodup := by
  cases c with
  | affine t => exact h.2.2.1
  | general g => exact h.2.1

theorem wf_nodup_output {c : CMap} (h : c.wf) : c.output_coords.coord_names.Nodup := by
  cases c with
  | affine t => exact h.2.2.2
  | general g => exact h.2.2

theorem affine_function_eq {c : CMap} (h : c.isAffine = true) :
    c.function = fun x => affApply c.affMat x := by
  cases c with
  | affine t => rfl
  | general g => simp [CMap.isAffine] at h

theorem affine_wfMat {c : CMap} (ha : c.isAffine = true) (hw : c.wf) :
    wfAffineMat c.output_coords.ndim c.input_coords.ndim c.affMat := by
  cases c with
  | affine t => exact hw.1
  | general g => simp [CMap.isAffine] at ha

theorem affine_dtype_eq {c : CMap} (ha : c.isAffine = true) (hw : c.wf) :
    c.input_coords.coord_dtype = c.output_coords.coord_dtype := by
  cases c with
  | affine t => exact hw.2.1
  | general g => simp [CMap.isAffine] at ha

/-! ### The composition loop -/

theorem headD_append_singleton {α : Type} (l : List α) (a d : α) :
    (l ++ [a]).headD d = l.headD a := by
  cases l <;> rfl

theorem head_append_singleton {α : Type} (l : List α) (a : α) (h : l ++ [a] ≠ []) :
    (l ++ [a]).head h = l.headD a := by
  cases l <;> rfl

theorem chained_cons {m b : CMap} {tl : List CMap}
    (h : chained (m :: b :: tl) = true) :
    CoordinateSystem.eq m.input_coords b.output_coords = true
      ∧ chained (b :: tl) = true := by
  rw [chained, Bool.and_eq_true] at h
  exact h

theorem matProdList_cons (a : List (List ℚ)) (l : List (List (List ℚ))) (h : l ≠ []) :
    matProdList (a :: l) = matMul a (matProdList l) := by
  cases l with
  | nil => exact absurd rfl h
  | cons b l => rfl

theorem general_call (g : GCoordinateMap) (x : List ℚ) (hx : x.length = g.input_coords.ndim)
    (hy : (g.function x).length = g.output_coords.ndim) :
    (CMap.general g).call x = .ok (g.function x) := by
  have e1 : g.input_coords._checked_values x = .ok x := by
    rw [CoordinateSystem._checked_values, if_pos hx]
  have e2 : g.output_coords._checked_values (g.function x) = .ok (g.function x) := by
    rw [CoordinateSystem._checked_values, if_pos hy]
  show (do
    let xv ← g.input_coords._checked_values x
    g.output_coords._checked_values (g.function xv)) = Except.ok (g.function x)
  rw [e1]
  show g.output_coords._checked_values (g.function x) = Except.ok (g.function x)
  exact e2

theorem composeStep_ok {m acc : CMap} (hm : m.wf) (hacc : acc.wf)
    (hseam : CoordinateSystem.eq m.input_coords acc.output_coords = true) :
    ∃ g : GCoordinateMap, composeStep m acc = .ok (.general g)
      ∧ g.function = (fun x => m.function (acc.function x))
      ∧ g.input_coords = acc.input_coords
      ∧ g.output_coords = m.output_coords := by
  refine ⟨⟨fun x => m.function (acc.function x), acc.input_coords, m.output_coords,
      match m.inverse, acc.inverse with
      | some i1, some i2 => some (fun y => i2.function (i1.function y))
      | _, _ => none⟩, ?_, rfl, rfl, rfl⟩
  have hlen1 : (acc.function (zeros acc.input_coords.ndim)).length = acc.output_coords.ndim :=
    wf_function_length hacc _ (zeros_length _)
  have hlen2 : (m.function (acc.function (zeros acc.input_coords.ndim))).length
      = m.output_coords.ndim := by
    apply wf_function_length hm
    rw [hlen1, eq_ndim hseam]
  have hprobe := general_call ⟨fun x => m.function (acc.function x), acc.input_coords,
      m.output_coords, match m.inverse, acc.inverse with
      | some i1, some i2 => some (fun y => i2.function (i1.function y))
      | _, _ => none⟩ (zeros acc.input_coords.ndim) (zeros_length _) hlen2
  simp only [composeStep]
  rw [if_pos hseam, hprobe]

theorem composeAux_ok : ∀ (ms : List CMap) (acc : CMap), (∀ c ∈ ms, c.wf) → acc.wf →
    chained (ms ++ [acc]) = true →
    ∃ g : CMap, composeAux ms acc = .ok g ∧ g.wf
      ∧ g.input_coords = acc.input_coords
      ∧ g.output_coords = (ms.headD acc).output_coords
      ∧ ∀ x, g.function x = chainFun ms acc x := by
  intro ms
  induction ms with
  | nil =>
    intro acc _ hacc _
    exact ⟨acc, rfl, hacc, rfl, rfl, fun x => rfl⟩
  | cons m rest ih =>
    intro acc hwf hacc hch
    have hmwf : m.wf := hwf m (List.mem_cons_self _ _)
    have hrwf : ∀ c ∈ rest, c.wf := fun c hc => hwf c (List.mem_cons_of_mem _ hc)
    have hch' : CoordinateSystem.eq m.input_coords
          ((rest ++ [acc]).headD acc).output_coords = true
        ∧ chained (rest ++ [acc]) = true := by
      cases hra : rest ++ [acc] with
      | nil => simp at hra
      | cons b tl =>
        have hmb : chained (m :: b :: tl) = true := by
          rw [← hra]
          exact hch
        have hc := chained_cons hmb
        exact ⟨hc.1, hc.2⟩
    obtain ⟨g', hg'eq, hg'wf, hg'in, hg'out, hg'fun⟩ := ih acc hrwf hacc hch'.2
    have hseam : CoordinateSystem.eq m.input_coords g'.output_coords = true := by
      rw [hg'out, ← headD_append_singleton rest acc acc]
      exact hch'.1
    obtain ⟨g, hgeq, hgfun, hgin, hgout⟩ := composeStep_ok hmwf hg'wf hseam
    refine ⟨.general g, ?_, ?_, ?_, ?_, ?_⟩
    · rw [composeAux, hg'eq]
      exact hgeq
    · refine ⟨?_, ?_, ?_⟩
      · intro x hx
        show (g.function x).length = g.output_coords.ndim
        rw [hgfun, hgout]
        have hx' : x.length = g'.input_coords.ndim := by
          rw [← hgin]
          exact hx
        have h1 : (g'.function x).length = m.input_coords.ndim := by
          rw [wf_function_length hg'wf x hx']
          exact (eq_ndim hseam).symm
        exact wf_function_length hmwf _ h1
      · show g.input_coords.coord_names.Nodup
        rw [hgin, hg'in]
        exact wf_nodup_input hacc
      · show g.output_coords.coord_names.Nodup
        rw [hgout]
        exact wf_nodup_output hmwf
    · show g.input_coords = acc.input_coords
      rw [hgin, hg'in]
    · show g.output_coords = ((m :: rest).headD acc).output_coords
      rw [hgout]
      rfl
    · intro x
      show g.function x = chainFun (m :: rest) acc x
      rw [hgfun]
      show m.function (g'.function x) = m.function (chainFun rest acc x)
      rw [hg'fun x]

theorem chainFun_affine : ∀ (ms : List CMap) (acc : CMap),
    (∀ c ∈ ms, c.isAffine = true) → (∀ c ∈ ms, c.wf) →
    acc.isAffine = true → acc.wf → chained (ms ++ [acc]) = true →
    wfAffineMat ((ms.headD acc).output_coords.ndim) (acc.input_coords.ndim)
        (matProdList ((ms ++ [acc]).map CMap.affMat))
      ∧ ∀ x : List ℚ, x.length = acc.input_coords.ndim →
        chainFun ms acc x = affApply (matProdList ((ms ++ [acc]).map CMap.affMat)) x := by
  intro ms
  induction ms with
  | nil =>
    intro acc _ _ haff hacc _
    simp only [List.nil_append, List.map_cons, List.map_nil, List.headD_nil]
    constructor
    · exact affine_wfMat haff hacc
    · intro x _
      show acc.function x = affApply acc.affMat x
      rw [affine_function_eq haff]
  | cons m rest ih =>
    intro acc haffs hwfs haff hacc hch
    have hmaff : m.isAffine = true := haffs m (List.mem_cons_self _ _)
    have hmwf : m.wf := hwfs m (List.mem_cons_self _ _)
    have hch' : CoordinateSystem.eq m.input_coords
          ((rest ++ [acc]).headD acc).output_coords = true
        ∧ chained (rest ++ [acc]) = true := by
      cases hra : rest ++ [acc] with
      | nil => simp at hra
      | cons b tl =>
        have hmb : chained (m :: b :: tl) = true := by
          rw [← hra]
          exact hch
        have hc := chained_cons hmb
        exact ⟨hc.1, hc.2⟩
    obtain ⟨ihwf, ihfun⟩ := ih acc (fun c hc => haffs c (List.mem_cons_of_mem _ hc))
      (fun c hc => hwfs c (List.mem_cons_of_mem _ hc)) haff hacc hch'.2
    have hraeq : (rest ++ [acc]).headD acc = rest.headD acc :=
      headD_append_singleton rest acc acc
    have hmP : wfAffineMat m.input_coords.ndim acc.input_coords.ndim
        (matProdList ((rest ++ [acc]).map CMap.affMat)) := by
      have := eq_ndim hch'.1
      rw [hraeq] at *
      rw [this]
      exact ihwf
    have hmwfmat := affine_wfMat hmaff hmwf
    have hprod : matProdList (((m :: rest) ++ [acc]).map CMap.affMat)
        = matMul m.affMat (matProdList ((rest ++ [acc]).map CMap.affMat)) := by
      rw [List.cons_append, List.map_cons]
      exact matProdList_cons _ _ (by simp)
    constructor
    · rw [hprod]
      show wfAffineMat ((m :: rest).headD acc).output_coords.ndim _ _
      exact wf_matMul hmwfmat hmP
    · intro x hx
      show m.function (chainFun rest acc x) = _
      rw [hprod, ihfun x hx, affine_function_eq hmaff]
      show affApply m.affMat (affApply (matProdList ((rest ++ [acc]).map CMap.affMat)) x)
        = affApply (matMul m.affMat (matProdList ((rest ++ [acc]).map CMap.affMat))) x
      exact affApply_comp hmwfmat hmP x hx

theorem chain_dtype : ∀ (ms : List CMap) (acc : CMap),
    (∀ c ∈ ms, c.isAffine = true) → (∀ c ∈ ms, c.wf) →
    acc.isAffine = true → acc.wf → chained (ms ++ [acc]) = true →
    (ms.headD acc).output_coords.coord_dtype = acc.input_coords.coord_dtype := by
  intro ms
  induction ms with
  | nil =>
    intro acc _ _ haff hacc _
    exact (affine_dtype_eq haff hacc).symm
  | cons m rest ih =>
    intro acc haffs hwfs haff hacc hch
    have hmaff : m.isAffine = true := haffs m (List.mem_cons_self _ _)
    have hmwf : m.wf := hwfs m (List.mem_cons_self _ _)
    have hch' : CoordinateSystem.eq m.input_coords
          ((rest ++ [acc]).headD acc).output_coords = true
        ∧ chained (rest ++ [acc]) = true := by
      cases hra : rest ++ [acc] with
      | nil => simp at hra
      | cons b tl =>
        have hmb : chained (m :: b :: tl) = true := by
          rw [← hra]
          exact hch
        have hc := chained_cons hmb
        exact ⟨hc.1, hc.2⟩
    have ihd := ih acc (fun c hc => haffs c (List.mem_cons_of_mem _ hc))
      (fun c hc => hwfs c (List.mem_cons_of_mem _ hc)) haff hacc hch'.2
    show m.output_coords.coord_dtype = acc.input_coords.coord_dtype
    rw [← affine_dtype_eq hmaff hmwf, (eq_spec hch'.1).2,
      headD_append_singleton rest acc acc, ihd]

theorem safe_dtype_same (d : ℕ) : safe_dtype [d, d, d] = d := by
  simp [safe_dtype]

theorem create_wf_ok {m k : ℕ} (aff : List (List ℚ)) (ics ocs : CoordinateSystem)
    (hwf : wfAffineMat m k aff) (hm : ocs.ndim = m) (hk : ics.ndim = k)
    (hd : ics.coord_dtype = ocs.coord_dtype) :
    AffineTransform.create aff ocs.coord_dtype ics ocs = .ok ⟨aff, ics, ocs⟩ := by
  obtain ⟨inames, iname, idt⟩ := ics
  obtain ⟨onames, oname, odt⟩ := ocs
  simp only [CoordinateSystem.ndim] at hm hk
  simp only at hd
  subst hd
  simp only [AffineTransform.create, safe_dtype_same]
  rw [if_pos]
  constructor
  · show aff.length = onames.length + 1
    rw [hm, hwf.1]
  · intro r hr
    show r.length = inames.length + 1
    rw [hk]
    exact hwf.2.1 r hr

theorem call_ok (c : CMap) (x : List ℚ) (hx : x.length = c.input_coords.ndim)
    (hy : (c.function x).length = c.output_coords.ndim) :
    c.call x = .ok (c.function x) := by
  have e1 : c.input_coords._checked_values x = .ok x := by
    rw [CoordinateSystem._checked_values, if_pos hx]
  have e2 : c.output_coords._checked_values (c.function x) = .ok (c.function x) := by
    rw [CoordinateSystem._checked_values, if_pos hy]
  show (do
    let xv ← c.input_coords._checked_values x
    c.output_coords._checked_values (c.function xv)) = Except.ok (c.function x)
  rw [e1]
  show c.output_coords._checked_values (c.function x) = Except.ok (c.function x)
  exact e2

theorem compose_eq_of_getLast (cs : List CMap) (last : CMap) (h : cs.getLast? = some last) :
    compose cs = (do
      let acc ← composeAux cs.dropLast last
      if cs.all CMap.isAffine then
        let n := acc.input_coords.ndim
        let aff := linearize (CMap.callD acc) n 1 (zeros n)
        let t ← AffineTransform.create aff acc.output_coords.coord_dtype
          acc.input_coords acc.output_coords
        pure (.affine t)
      else pure acc) := by
  unfold compose
  rw [h]

theorem compose_eq_bind (cs : List CMap) (last : CMap) (h : cs.getLast? = some last) :
    compose cs = (do
      let acc ← composeAux cs.dropLast last
      if cs.all CMap.isAffine then
        let n := acc.input_coords.ndim
        let aff := linearize (CMap.callD acc) n 1 (zeros n)
        do
          let t ← AffineTransform.create aff acc.output_coords.coord_dtype
            acc.input_coords acc.output_coords
          pure (CMap.affine t)
      else pure acc) := by
  unfold compose
  rw [h]

theorem compose_eq_ok_aux (cs : List CMap) (last g : CMap) (h : cs.getLast? = some last)
    (hg : composeAux cs.dropLast last = .ok g) :
    compose cs = (if cs.all CMap.isAffine then
      (do
        let t ← AffineTransform.create
          (linearize (CMap.callD g) g.input_coords.ndim 1 (zeros g.input_coords.ndim))
          g.output_coords.coord_dtype g.input_coords g.output_coords
        pure (CMap.affine t))
      else pure g) := by
  rw [compose_eq_bind cs last h, hg]
  rfl

theorem compose_eq_error_aux (cs : List CMap) (last : CMap) (e : String)
    (h : cs.getLast? = some last) (herr : composeAux cs.dropLast last = .error e) :
    compose cs = .error e := by
  rw [compose_eq_bind cs last h, herr]
  rfl

theorem head_eq_dropLast_headD {α : Type} (l : List α) (h : l ≠ []) :
    l.head h = l.dropLast.headD (l.getLast h) := by
  cases l with
  | nil => exact absurd rfl h
  | cons a tl =>
    cases tl with
    | nil => rfl
    | cons b tl2 => rfl

theorem compose_all_affine_core (cs : List CMap) (hne : cs ≠ [])
    (haff : ∀ c ∈ cs, c.isAffine = true) (hwf : ∀ c ∈ cs, c.wf)
    (hch : chained cs = true) :
    compose cs = .ok (.affine ⟨matProdList (cs.map CMap.affMat),
      (cs.getLast hne).input_coords, (cs.head hne).output_coords⟩) := by
  have hdec : cs.dropLast ++ [cs.getLast hne] = cs := List.dropLast_append_getLast hne
  have hmemd : ∀ c ∈ cs.dropLast, c ∈ cs := by
    intro c hc
    rw [← hdec]
    exact List.mem_append_left _ hc
  have hwfd : ∀ c ∈ cs.dropLast, c.wf := fun c hc => hwf c (hmemd c hc)
  have haffd : ∀ c ∈ cs.dropLast, c.isAffine = true := fun c hc => haff c (hmemd c hc)
  have hlastmem : cs.getLast hne ∈ cs := List.getLast_mem hne
  have hlastwf : (cs.getLast hne).wf := hwf _ hlastmem
  have hlastaff : (cs.getLast hne).isAffine = true := haff _ hlastmem
  have hchd : chained (cs.dropLast ++ [cs.getLast hne]) = true := by
    rw [hdec]
    exact hch
  obtain ⟨g, hgeq, hgwf, hgin, hgout, hgfun⟩ :=
    composeAux_ok cs.dropLast (cs.getLast hne) hwfd hlastwf hchd
  obtain ⟨hP, hPfun⟩ :=
    chainFun_affine cs.dropLast (cs.getLast hne) haffd hwfd hlastaff hlastwf hchd
  have hP' : wfAffineMat ((cs.dropLast.headD (cs.getLast hne)).output_coords.ndim)
      g.input_coords.ndim (matProdList ((cs.dropLast ++ [cs.getLast hne]).map CMap.affMat)) := by
    rw [hgin]
    exact hP
  have hcall : ∀ x : List ℚ, x.length = g.input_coords.ndim →
      CMap.callD g x
        = affApply (matProdList ((cs.dropLast ++ [cs.getLast hne]).map CMap.affMat)) x := by
    intro x hx
    have hx' : x.length = (cs.getLast hne).input_coords.ndim := by
      rw [← hgin]
      exact hx
    have hfx : g.function x
        = affApply (matProdList ((cs.dropLast ++ [cs.getLast hne]).map CMap.affMat)) x := by
      rw [hgfun x, hPfun x hx']
    have hlen : (g.function x).length = g.output_coords.ndim := wf_function_length hgwf x hx
    rw [CMap.callD, call_ok g x hx hlen, hfx]
    rfl
  have hlin : linearize (CMap.callD g) g.input_coords.ndim 1 (zeros g.input_coords.ndim)
      = matProdList ((cs.dropLast ++ [cs.getLast hne]).map CMap.affMat) :=
    linearize_affine hP' (CMap.callD g) 1 one_ne_zero hcall
  have hdt : g.input_coords.coord_dtype = g.output_coords.coord_dtype := by
    rw [hgin, hgout,
      chain_dtype cs.dropLast (cs.getLast hne) haffd hwfd hlastaff hlastwf hchd]
  have hcreate : AffineTransform.create
      (matProdList ((cs.dropLast ++ [cs.getLast hne]).map CMap.affMat))
      g.output_coords.coord_dtype g.input_coords g.output_coords
      = .ok ⟨matProdList ((cs.dropLast ++ [cs.getLast hne]).map CMap.affMat),
          g.input_coords, g.output_coords⟩ := by
    apply create_wf_ok _ _ _ hP'
    · rw [hgout]
    · rfl
    · exact hdt
  have hall : cs.all CMap.isAffine = true := List.all_eq_true.mpr haff
  have hsome : cs.getLast? = some (cs.getLast hne) := List.getLast?_eq_getLast cs hne
  rw [compose_eq_ok_aux cs (cs.getLast hne) g hsome hgeq, if_pos hall, hlin, hcreate,
    hgin, hgout, hdec, head_eq_dropLast_headD cs hne]
  rfl

theorem composeAux_mismatch : ∀ (ms : List CMap) (acc : CMap), (∀ c ∈ ms, c.wf) → acc.wf →
    chained (ms ++ [acc]) = false →
    ∃ s1 s2, composeAux ms acc = .error (seamMsg s1 s2)
      ∧ CoordinateSystem.eq s1 s2 = false
      ∧ ∃ i, i + 1 < (ms ++ [acc]).length
        ∧ ((ms ++ [acc]).getD i default).input_coords = s1
        ∧ ((ms ++ [acc]).getD (i + 1) default).output_coords = s2 := by
  intro ms
  induction ms with
  | nil =>
    intro acc _ _ hch
    rw [List.nil_append] at hch
    simp [chained] at hch
  | cons m rest ih =>
    intro acc hwf hacc hch
    have hmwf : m.wf := hwf m (List.mem_cons_self _ _)
    have hrwf : ∀ c ∈ rest, c.wf := fun c hc => hwf c (List.mem_cons_of_mem _ hc)
    cases hra : rest ++ [acc] with
    | nil => simp at hra
    | cons b tl =>
      have hch2 : chained (m :: b :: tl) = false := by
        rw [← hra]
        exact hch
      rw [chained] at hch2
      cases hcr : chained (rest ++ [acc]) with
      | false =>
        obtain ⟨s1, s2, herr, hne12, i, hilt, hi1, hi2⟩ := ih acc hrwf hacc hcr
        refine ⟨s1, s2, ?_, hne12, i + 1, ?_, ?_, ?_⟩
        · rw [composeAux, herr]
          rfl
        · simp only [List.cons_append, List.length_cons]
          omega
        · rw [List.cons_append, List.getD_cons_succ]
          exact hi1
        · rw [List.cons_append, List.getD_cons_succ]
          exact hi2
      | true =>
        have hb : CoordinateSystem.eq m.input_coords b.output_coords = false := by
          rw [hra] at hcr
          rw [hcr, Bool.and_true] at hch2
          exact hch2
        obtain ⟨g, hgeq, _, _, hgout, _⟩ := composeAux_ok rest acc hrwf hacc hcr
        have hgoutb : g.output_coords = b.output_coords := by
          rw [hgout, ← headD_append_singleton rest acc acc, hra, List.headD_cons]
        refine ⟨m.input_coords, g.output_coords, ?_, ?_, 0, ?_, ?_, ?_⟩
        · rw [composeAux, hgeq]
          show composeStep m g = _
          rw [composeStep, if_neg]
          rw [hgoutb, hb]
          simp
        · rw [hgoutb]
          exact hb
        · rw [List.cons_append, hra]
          simp only [List.length_cons]
          omega
        · rw [List.cons_append, List.getD_cons_zero]
        · rw [List.cons_append, List.getD_cons_succ, hra, List.getD_cons_zero, hgoutb]

theorem chained_false_of_mismatch : ∀ (cs : List CMap) (i : ℕ), i + 1 < cs.length →
    CoordinateSystem.eq ((cs.getD i default).input_coords)
      ((cs.getD (i + 1) default).output_coords) = false →
    chained cs = false := by
  intro cs
  induction cs with
  | nil => intro i hi _; simp at hi
  | cons a tl ih =>
    intro i hi hmm
    cases tl with
    | nil => simp at hi
    | cons b tl2 =>
      cases i with
      | zero =>
        rw [List.getD_cons_zero, List.getD_cons_succ, List.getD_cons_zero] at hmm
        rw [chained, hmm, Bool.false_and]
      | succ j =>
        rw [List.getD_cons_succ, List.getD_cons_succ] at hmm
        have : chained (b :: tl2) = false := by
          apply ih j (by simpa using hi)
          exact hmm
        rw [chained, this, Bool.and_false]

/-- C5: whenever some adjacent pair passed to `compose` has
`cmap_i.input_coords ≠ cmap_(i+1).output_coords`, `compose` fails with the
`ValueError` whose message prints the composite dtypes (axis names and
precision) of the two coordinate systems of a mismatching seam — it never
succeeds across a mismatched seam. -/
theorem claim_C5_compose_seam_mismatch (cs : List CMap) (hwf : ∀ c ∈ cs, c.wf)
    (i : ℕ) (hi : i + 1 < cs.length)
    (hmm : CoordinateSystem.eq ((cs.getD i default).input_coords)
      ((cs.getD (i + 1) default).output_coords) = false) :
    ∃ s1 s2 j, j + 1 < cs.length
      ∧ (cs.getD j default).input_coords = s1
      ∧ (cs.getD (j + 1) default).output_coords = s2
      ∧ CoordinateSystem.eq s1 s2 = false
      ∧ compose cs = .error (seamMsg s1 s2) := by
  have hne : cs ≠ [] := by
    intro heq
    rw [heq] at hi
    simp at hi
  have hdec : cs.dropLast ++ [cs.getLast hne] = cs := List.dropLast_append_getLast hne
  have hch : chained (cs.dropLast ++ [cs.getLast hne]) = false := by
    rw [hdec]
    exact chained_false_of_mismatch cs i hi hmm
  have hmemd : ∀ c ∈ cs.dropLast, c ∈ cs := by
    intro c hc
    rw [← hdec]
    exact List.mem_append_left _ hc
  obtain ⟨s1, s2, herr, hne12, j, hjlt, hj1, hj2⟩ :=
    composeAux_mismatch cs.dropLast (cs.getLast hne)
      (fun c hc => hwf c (hmemd c hc)) (hwf _ (List.getLast_mem hne)) hch
  rw [hdec] at hjlt hj1 hj2
  exact ⟨s1, s2, j, hjlt, hj1, hj2, hne12,
    compose_eq_error_aux cs (cs.getLast hne) _ (List.getLast?_eq_getLast cs hne) herr⟩

theorem claim_C5_witness :
    ∃ s1 s2 j,
      j + 1 < ([CMap.affine ⟨[[3, 0], [0, 1]], ⟨["j"], "", 64⟩, ⟨["y"], "", 64⟩⟩,
        CMap.affine ⟨[[2, 0], [0, 1]], ⟨["i"], "", 64⟩, ⟨["x"], "", 64⟩⟩] : List CMap).length
      ∧ (([CMap.affine ⟨[[3, 0], [0, 1]], ⟨["j"], "", 64⟩, ⟨["y"], "", 64⟩⟩,
        CMap.affine ⟨[[2, 0], [0, 1]], ⟨["i"], "", 64⟩, ⟨["x"], "", 64⟩⟩] : List CMap).getD j
          default).input_coords = s1
      ∧ (([CMap.affine ⟨[[3, 0], [0, 1]], ⟨["j"], "", 64⟩, ⟨["y"], "", 64⟩⟩,
        CMap.affine ⟨[[2, 0], [0, 1]], ⟨["i"], "", 64⟩, ⟨["x"], "", 64⟩⟩] : List CMap).getD (j + 1)
          default).output_coords = s2
      ∧ CoordinateSystem.eq s1 s2 = false
      ∧ compose [CMap.affine ⟨[[3, 0], [0, 1]], ⟨["j"], "", 64⟩, ⟨["y"], "", 64⟩⟩,
          CMap.affine ⟨[[2, 0], [0, 1]], ⟨["i"], "", 64⟩, ⟨["x"], "", 64⟩⟩]
          = .error (seamMsg s1 s2) := by
  apply claim_C5_compose_seam_mismatch _ ?_ 0 (by decide) (by decide)
  intro c hc
  fin_cases hc
  · exact ⟨by decide, by decide, by decide, by decide⟩
  · exact ⟨by decide, by decide, by decide, by decide⟩

/-- C1: for every nonempty sequence of well-formed `AffineTransform`s with
matching coordinate systems at each seam, `compose` returns an
`AffineTransform` whose homogeneous matrix is exactly the right-to-left
product of the operands' matrices, whose `input_coords` equal the last
operand's `input_coords` and whose `output_coords` equal the first operand's
`output_coords`. -/
theorem claim_C1_compose_all_affine (cs : List CMap) (hne : cs ≠ [])
    (haff : ∀ c ∈ cs, c.isAffine = true) (hwf : ∀ c ∈ cs, c.wf)
    (hch : chained cs = true) :
    ∃ t : AffineTransform, compose cs = .ok (.affine t)
      ∧ t.affine = matProdList (cs.map CMap.affMat)
      ∧ t.input_coords = (cs.getLast hne).input_coords
      ∧ t.output_coords = (cs.head hne).output_coords :=
  ⟨_, compose_all_affine_core cs hne haff hwf hch, rfl, rfl, rfl⟩

theorem claim_C1_witness :
    ∃ t : AffineTransform,
      compose [CMap.affine ⟨[[5, 1], [0, 1]], ⟨["x"], "", 64⟩, ⟨["w"], "", 64⟩⟩,
          CMap.affine ⟨[[2, 0], [0, 1]], ⟨["i"], "", 64⟩, ⟨["x"], "", 64⟩⟩] = .ok (.affine t)
      ∧ t.affine = matProdList
          (([CMap.affine ⟨[[5, 1], [0, 1]], ⟨["x"], "", 64⟩, ⟨["w"], "", 64⟩⟩,
            CMap.affine ⟨[[2, 0], [0, 1]], ⟨["i"], "", 64⟩, ⟨["x"], "", 64⟩⟩] : List CMap).map
            CMap.affMat)
      ∧ t.input_coords = (([CMap.affine ⟨[[5, 1], [0, 1]], ⟨["x"], "", 64⟩, ⟨["w"], "", 64⟩⟩,
          CMap.affine ⟨[[2, 0], [0, 1]], ⟨["i"], "", 64⟩, ⟨["x"], "", 64⟩⟩] : List CMap).getLast
            (by simp)).input_coords
      ∧ t.output_coords = (([CMap.affine ⟨[[5, 1], [0, 1]], ⟨["x"], "", 64⟩, ⟨["w"], "", 64⟩⟩,
          CMap.affine ⟨[[2, 0], [0, 1]], ⟨["i"], "", 64⟩, ⟨["x"], "", 64⟩⟩] : List CMap).head
            (by simp)).output_coords := by
  apply claim_C1_compose_all_affine _ (by simp) (by decide) ?_ (by decide)
  intro c hc
  fin_cases hc
  · exact ⟨by decide, by decide, by decide, by decide⟩
  · exact ⟨by decide, by decide, by decide, by decide⟩

theorem getD_replicate {α : Type} (a d : α) (n i : ℕ) (h : i < n) :
    (List.replicate n a).getD i d = a := by
  rw [List.getD_eq_getElem?_getD, List.getElem?_eq_getElem (by simpa using h),
    List.getElem_replicate]
  rfl

/-- C4 counterexample: the claim that `linearize` reproduces an affine
function's matrix "for every choice of step and origin" is false: for the
1-d identity matrix, origin `[1]` (translation column becomes `f(origin) =
A·origin + b ≠ b`) or step `0` (zero difference quotients) do not reproduce
the matrix. -/
theorem claim_C4_counterexample :
    linearize (affApply [[1, 0], [0, 1]]) 1 1 [1] ≠ [[1, 0], [0, 1]]
      ∧ linearize (affApply [[1, 0], [0, 1]]) 1 0 (zeros 1) ≠ [[1, 0], [0, 1]] := by
  have h1 : linearize (affApply [[1, 0], [0, 1]]) 1 1 [1] = [[1, 1], [0, 1]] := by
    simp [linearize, affApply, to_matrix_vector, dot, addVec, scaleVec, stdBasis, zeros,
      homRow, List.range_succ]
  have h2 : linearize (affApply [[1, 0], [0, 1]]) 1 0 (zeros 1) = [[0, 0], [0, 1]] := by
    simp [linearize, affApply, to_matrix_vector, dot, addVec, scaleVec, stdBasis, zeros,
      homRow, List.range_succ]
  rw [h1, h2]
  refine ⟨?_, ?_⟩ <;> decide

/-- C4 (amended): for every function `f` of `n` variables, `linearize`
returns a homogeneous matrix whose last row is `[0, ..., 0, 1]`, whose
translation column is `f(origin)` and whose linear-block entry `(j, i)` is
`(f(origin + step·e_i) - f(origin))_j / step`; and for every nonzero `step`,
applied at the default origin (the zero vector) to the function of a
well-formed affine matrix `t`, it reproduces `t` exactly. -/
theorem claim_C4_linearize (f : List ℚ → List ℚ) (n : ℕ) (step : ℚ) (origin : List ℚ) :
    ((linearize f n step origin).getLast? = some (homRow n)
      ∧ (∀ j, j + 1 < (linearize f n step origin).length →
          ((linearize f n step origin).getD j []).getLastD 0 = (f origin).getD j 0)
      ∧ (∀ j i, j + 1 < (linearize f n step origin).length → i < n →
          ((linearize f n step origin).getD j []).getD i 0
            = ((f (addVec (scaleVec step (stdBasis n i)) origin)).getD j 0
                - (f origin).getD j 0) / step))
      ∧ ∀ (m k : ℕ) (t : List (List ℚ)), wfAffineMat m k t → step ≠ 0 →
          linearize (affApply t) k step (zeros k) = t := by
  refine ⟨⟨?_, ?_, ?_⟩, ?_⟩
  · simp only [linearize]
    exact List.getLast?_concat _
  · intro j hj
    simp only [linearize] at hj ⊢
    rw [List.length_append, List.length_map, List.length_range, List.length_singleton] at hj
    have hjlt : j < (((List.range n).map (fun i =>
        f (addVec (scaleVec step (stdBasis n i)) origin))).headD (f origin)).length := by
      omega
    rw [List.getD_append _ _ _ _ (by simpa using hjlt),
      getD_map_lt _ _ j [] 0 (by simpa using hjlt), getD_range _ j hjlt]
    rw [List.getLastD_concat]
  · intro j i hj hi
    simp only [linearize] at hj ⊢
    rw [List.length_append, List.length_map, List.length_range, List.length_singleton] at hj
    have hjlt : j < (((List.range n).map (fun i =>
        f (addVec (scaleVec step (stdBasis n i)) origin))).headD (f origin)).length := by
      omega
    have hy0 : (((List.replicate n origin).map f).getD i []) = f origin := by
      rw [List.map_replicate]
      exact getD_replicate _ _ n i hi
    have hy1 : (((List.range n).map (fun i =>
        f (addVec (scaleVec step (stdBasis n i)) origin))).getD i [])
        = f (addVec (scaleVec step (stdBasis n i)) origin) := by
      rw [getD_map_lt _ _ i [] 0 (by simpa using hi), getD_range n i hi]
    rw [List.getD_append _ _ _ _ (by simpa using hjlt),
      getD_map_lt _ _ j [] 0 (by simpa using hjlt), getD_range _ j hjlt,
      List.getD_append _ _ _ _ (by simpa using hi),
      getD_map_lt _ _ i 0 0 (by simpa using hi), getD_range n i hi, hy1, hy0]
  · intro m k t hwf hstep
    exact linearize_affine hwf (affApply t) step hstep (fun x _ => rfl)

theorem claim_C4_witness :
    ((linearize (affApply [[2, 0, 3], [0, 5, 7], [0, 0, 1]]) 2 4 [1, 1]).getLast?
        = some (homRow 2)
      ∧ (∀ j, j + 1 < (linearize (affApply [[2, 0, 3], [0, 5, 7], [0, 0, 1]]) 2 4 [1, 1]).length →
          ((linearize (affApply [[2, 0, 3], [0, 5, 7], [0, 0, 1]]) 2 4 [1, 1]).getD j []).getLastD 0
            = (affApply [[2, 0, 3], [0, 5, 7], [0, 0, 1]] [1, 1]).getD j 0)
      ∧ (∀ j i, j + 1 < (linearize (affApply [[2, 0, 3], [0, 5, 7], [0, 0, 1]]) 2 4 [1, 1]).length →
          i < 2 →
          ((linearize (affApply [[2, 0, 3], [0, 5, 7], [0, 0, 1]]) 2 4 [1, 1]).getD j []).getD i 0
            = ((affApply [[2, 0, 3], [0, 5, 7], [0, 0, 1]]
                  (addVec (scaleVec 4 (stdBasis 2 i)) [1, 1])).getD j 0
                - (affApply [[2, 0, 3], [0, 5, 7], [0, 0, 1]] [1, 1]).getD j 0) / 4))
      ∧ ∀ (m k : ℕ) (t : List (List ℚ)), wfAffineMat m k t → (4 : ℚ) ≠ 0 →
          linearize (affApply t) k 4 (zeros k) = t :=
  claim_C4_linearize (affApply [[2, 0, 3], [0, 5, 7], [0, 0, 1]]) 2 4 [1, 1]

theorem except_bind_ok {α β ε : Type} (a : α) (f : α → Except ε β) :
    (do let x ← Except.ok a; f x : Except ε β) = f a := rfl

/-- C2: evaluating a well-formed `AffineTransform` at a valid input `x`
returns exactly `x · Aᵗ + b`, where `[[A, b], [0, 1]]` is its homogeneous
matrix; in particular `AffineTransform(diag(1,2,3,1), CS(ijk), CS(xyz))`
maps `[1,1,1]` to `[1,2,3]` and its inverse maps `[1,2,3]` to `[1,1,1]`. -/
theorem claim_C2_affine_evaluation :
    (∀ (t : AffineTransform), CMap.wf (.affine t) →
      ∀ x : List ℚ, x.length = t.input_coords.ndim →
        CMap.call (.affine t) x
          = .ok (List.zipWith (fun r bi => dot x r + bi)
              (to_matrix_vector t.affine).1 (to_matrix_vector t.affine).2))
      ∧ (∃ t : AffineTransform,
        AffineTransform.create [[1, 0, 0, 0], [0, 2, 0, 0], [0, 0, 3, 0], [0, 0, 0, 1]]
            float64 ⟨["i", "j", "k"], "", float64⟩ ⟨["x", "y", "z"], "", float64⟩ = .ok t
        ∧ CMap.call (.affine t) [1, 1, 1] = .ok [1, 2, 3]
        ∧ ∃ ti : AffineTransform, t.inverse = some ti
            ∧ CMap.call (.affine ti) [1, 2, 3] = .ok [1, 1, 1]) := by
  constructor
  · intro t hwf x hx
    exact call_ok (.affine t) x hx (wf_function_length hwf x hx)
  · refine ⟨⟨[[1, 0, 0, 0], [0, 2, 0, 0], [0, 0, 3, 0], [0, 0, 0, 1]],
      ⟨["i", "j", "k"], "", 64⟩, ⟨["x", "y", "z"], "", 64⟩⟩, rfl, ?_,
      ⟨[[1, 0, 0, 0], [0, 1/2, 0, 0], [0, 0, 1/3, 0], [0, 0, 0, 1]],
        ⟨["x", "y", "z"], "", 64⟩, ⟨["i", "j", "k"], "", 64⟩⟩, ?_, ?_⟩
    · simp [CMap.call, CoordinateSystem._checked_values, CoordinateSystem.ndim,
        CMap.function, AffineTransform.function, affApply, to_matrix_vector, dot,
        CMap.input_coords, CMap.output_coords, except_bind_ok]
    · have hinv : matInv [[1, 0, 0, 0], [0, 2, 0, 0], [0, 0, 3, 0], [0, 0, 0, 1]]
          = some [[(1 : ℚ), 0, 0, 0], [0, 1/2, 0, 0], [0, 0, 1/3, 0], [0, 0, 0, 1]] := by
        rw [matInv, if_pos]
        · rw [cofInv]
          norm_num [detList, minorL, List.range_succ, List.eraseIdx]
        · constructor
          · decide
          · norm_num [detList, List.range_succ]
      rw [AffineTransform.inverse, hinv]
      rfl
    · simp [CMap.call, CoordinateSystem._checked_values, CoordinateSystem.ndim,
        CMap.function, AffineTransform.function, affApply, to_matrix_vector, dot,
        CMap.input_coords, CMap.output_coords, except_bind_ok]

theorem claim_C2_witness :
    CMap.call (.affine ⟨[[2, 0], [0, 1]], ⟨["i"], "", 64⟩, ⟨["x"], "", 64⟩⟩) [3]
      = .ok (List.zipWith (fun r bi => dot [3] r + bi)
          (to_matrix_vector [[2, 0], [0, 1]]).1 (to_matrix_vector [[2, 0], [0, 1]]).2) :=
  claim_C2_affine_evaluation.1 ⟨[[2, 0], [0, 1]], ⟨["i"], "", 64⟩, ⟨["x"], "", 64⟩⟩
    ⟨by decide, by decide, by decide, by decide⟩ [3] (by decide)

/-! ### The cofactor inverse is the matrix inverse (bridge to Mathlib) -/

theorem sum_map_range (n : ℕ) (f : ℕ → ℚ) :
    ((List.range n).map f).sum = ∑ i ∈ Finset.range n, f i := by
  induction n with
  | zero => simp
  | succ m ih =>
    rw [List.range_succ, List.map_append, List.sum_append, Finset.sum_range_succ, ih]
    simp

theorem getD_eq_getElem {α : Type} (l : List α) (i : ℕ) (d : α) (h : i < l.length) :
    l.getD i d = l[i] := by
  rw [List.getD_eq_getElem?_getD, List.getElem?_eq_getElem h]
  rfl

theorem succAbove_val {n : ℕ} (p : Fin (n + 1)) (i : Fin n) :
    ((p.succAbove i : Fin (n + 1)) : ℕ) = if (i : ℕ) < (p : ℕ) then (i : ℕ) else (i : ℕ) + 1 := by
  rw [Fin.succAbove]
  by_cases h : (i : ℕ) < (p : ℕ)
  · rw [if_pos (by simpa [Fin.lt_def] using h), if_pos h]
    rfl
  · rw [if_neg (by simpa [Fin.lt_def] using h), if_neg h]
    rfl

theorem toMat_minor {n : ℕ} (l : List (List ℚ)) (p q : Fin (n + 1))
    (hl : l.length = n + 1) (hr : ∀ r ∈ l, r.length = n + 1) :
    toMat n (minorL l p q) = (toMat (n + 1) l).submatrix p.succAbove q.succAbove := by
  funext i j
  show ((minorL l p q).getD i []).getD j 0
    = (l.getD (p.succAbove i) []).getD (q.succAbove j) 0
  have hle : (l.eraseIdx p).length = n := by
    rw [List.length_eraseIdx, if_pos (by omega), hl]
    omega
  have hminlen : (minorL l p q).length = n := by
    rw [minorL, List.length_map, hle]
  have hi2 : (i : ℕ) < (l.eraseIdx ↑p).length := by rw [hle]; exact i.isLt
  have hrow : (minorL l p q).getD i [] = ((l.eraseIdx p).getD i []).eraseIdx q := by
    rw [minorL, getD_map_lt _ _ i [] [] (by rw [hle]; exact i.isLt)]
  rw [hrow]
  have herow : (l.eraseIdx ↑p).getD ↑i [] = l.getD (p.succAbove i) [] := by
    rw [getD_eq_getElem _ _ _ hi2, List.getElem_eraseIdx]
    rw [succAbove_val]
    by_cases h : (i : ℕ) < (p : ℕ)
    · rw [dif_pos h, if_pos h, getD_eq_getElem]
    · rw [dif_neg h, if_neg h, getD_eq_getElem]
  rw [herow]
  have hrlen : (l.getD (p.succAbove i) []).length = n + 1 := by
    apply hr
    apply getD_mem_of_lt
    rw [hl]
    exact (p.succAbove i).isLt
  have hj2 : (j : ℕ) < ((l.getD (↑(p.succAbove i)) []).eraseIdx ↑q).length := by
    rw [List.length_eraseIdx, if_pos (by rw [hrlen]; exact q.isLt), hrlen]
    simpa using j.isLt
  have hjn : (j : ℕ) < n := j.isLt
  rw [getD_eq_getElem _ _ _ hj2, List.getElem_eraseIdx, succAbove_val q j]
  by_cases h : (j : ℕ) < (q : ℕ)
  · rw [dif_pos h, if_pos h]
    exact (getD_eq_getElem _ _ _ (by rw [hrlen]; omega)).symm
  · rw [dif_neg h, if_neg h]
    exact (getD_eq_getElem _ _ _ (by rw [hrlen]; omega)).symm

theorem detList_eq_det : ∀ (n : ℕ) (l : List (List ℚ)), l.length = n →
    (∀ r ∈ l, r.length = n) → detList l = (toMat n l).det := by
  intro n
  induction n with
  | zero =>
    intro l hl _
    rw [List.length_eq_zero] at hl
    subst hl
    rw [detList, Matrix.det_fin_zero]
  | succ m ih =>
    intro l hl hr
    cases l with
    | nil => simp at hl
    | cons r rest =>
      have hrlen : r.length = m + 1 := hr r (List.mem_cons_self _ _)
      have hrest : rest.length = m := by simpa using hl
      rw [detList, hrlen, Matrix.det_succ_row_zero, sum_map_range, Finset.sum_range]
      apply Finset.sum_congr rfl
      intro j _
      have hj : (j : ℕ) < m + 1 := j.isLt
      have h0j : (toMat (m + 1) (r :: rest)) 0 j = r.getD j 0 := by
        show ((r :: rest).getD 0 []).getD j 0 = r.getD j 0
        rw [List.getD_cons_zero]
      have hminor_list : detList (rest.map (fun row => row.eraseIdx (j : ℕ)))
          = (toMat m (rest.map (fun row => row.eraseIdx (j : ℕ)))).det := by
        apply ih
        · rw [List.length_map, hrest]
        · intro rr hrr
          obtain ⟨row, hrow, rfl⟩ := List.mem_map.mp hrr
          have hrowlen : row.length = m + 1 := hr row (List.mem_cons_of_mem _ hrow)
          rw [List.length_eraseIdx, if_pos (by omega), hrowlen]
          omega
      have hminor_mat : toMat m (rest.map (fun row => row.eraseIdx (j : ℕ)))
          = (toMat (m + 1) (r :: rest)).submatrix Fin.succ j.succAbove := by
        have h := toMat_minor (r :: rest) 0 j (by simpa using hl) hr
        rw [Fin.succAbove_zero] at h
        have heq : minorL (r :: rest) ((0 : Fin (m + 1)) : ℕ) ((j : ℕ) : ℕ)
            = rest.map (fun row => row.eraseIdx (j : ℕ)) := rfl
        rw [heq] at h
        exact h
      rw [hminor_list, hminor_mat, h0j]

theorem adjugate_cofactor {n : ℕ} (A : Matrix (Fin (n + 1)) (Fin (n + 1)) ℚ)
    (i j : Fin (n + 1)) :
    Matrix.adjugate A i j
      = (-1) ^ ((i : ℕ) + (j : ℕ)) * (A.submatrix j.succAbove i.succAbove).det := by
  rw [Matrix.adjugate_apply, Matrix.det_succ_row _ j]
  rw [Finset.sum_eq_single i]
  · have h1 : A.updateRow j (Pi.single i 1) j i = 1 := by
      rw [Matrix.updateRow_self, Pi.single_eq_same]
    have h2 : (A.updateRow j (Pi.single i 1)).submatrix j.succAbove i.succAbove
        = A.submatrix j.succAbove i.succAbove := by
      funext a b
      show A.updateRow j (Pi.single i 1) (j.succAbove a) (i.succAbove b) = _
      rw [Matrix.updateRow_ne (Fin.succAbove_ne j a)]
      rfl
    rw [h1, h2, mul_one, Nat.add_comm]
  · intro u _ hu
    have h0 : A.updateRow j (Pi.single i 1) j u = 0 := by
      rw [Matrix.updateRow_self, Pi.single_eq_of_ne hu]
    rw [h0, mul_zero, zero_mul]
  · intro hni
    exact absurd (Finset.mem_univ i) hni

theorem cofInv_length (l : List (List ℚ)) : (cofInv l).length = l.length := by
  simp [cofInv]

theorem cofInv_row_length (l : List (List ℚ)) :
    ∀ r ∈ cofInv l, r.length = l.length := by
  intro r hr
  rw [cofInv] at hr
  obtain ⟨i, _, rfl⟩ := List.mem_map.mp hr
  simp

theorem cofInv_entry (l : List (List ℚ)) (i j : ℕ) (hi : i < l.length) (hj : j < l.length) :
    ((cofInv l).getD i []).getD j 0
      = (-1) ^ (i + j) * detList (minorL l j i) / detList l := by
  rw [cofInv, getD_map_lt _ _ i [] 0 (by simpa using hi), getD_range _ i hi,
    getD_map_lt _ _ j 0 0 (by simpa using hj), getD_range _ j hj]

theorem toMat_cofInv (l : List (List ℚ)) (n : ℕ) (hl : l.length = n)
    (hr : ∀ r ∈ l, r.length = n) :
    toMat n (cofInv l) = (detList l)⁻¹ • Matrix.adjugate (toMat n l) := by
  cases n with
  | zero =>
    funext i j
    exact i.elim0
  | succ m =>
    funext i j
    show ((cofInv l).getD i []).getD j 0
      = ((detList l)⁻¹ • Matrix.adjugate (toMat (m + 1) l)) i j
    rw [Matrix.smul_apply, cofInv_entry l i j (by rw [hl]; exact i.isLt)
        (by rw [hl]; exact j.isLt),
      adjugate_cofactor (toMat (m + 1) l) i j]
    have hms : (m + 1) - 1 = m := rfl
    have hmlen : (minorL l (j : ℕ) (i : ℕ)).length = m := by
      rw [minorL, List.length_map, List.length_eraseIdx,
        if_pos (by rw [hl]; exact j.isLt), hl]
      omega
    have hmrow : ∀ r ∈ minorL l (j : ℕ) (i : ℕ), r.length = m := by
      intro r hrr
      rw [minorL] at hrr
      obtain ⟨row, hrow, rfl⟩ := List.mem_map.mp hrr
      have hrowl : row.length = m + 1 := hr row (List.mem_of_mem_eraseIdx hrow)
      rw [List.length_eraseIdx, if_pos (by rw [hrowl]; exact i.isLt), hrowl]
      omega
    have hdm : detList (minorL l (j : ℕ) (i : ℕ))
        = ((toMat (m + 1) l).submatrix j.succAbove i.succAbove).det := by
      rw [detList_eq_det m _ hmlen hmrow, toMat_minor l j i hl hr]
    rw [hdm, smul_eq_mul, div_eq_inv_mul]

theorem zeros_getD (n j : ℕ) : (zeros n).getD j 0 = 0 := by
  induction n generalizing j with
  | zero => cases j <;> rfl
  | succ m ih =>
    cases j with
    | zero => rfl
    | succ k =>
      rw [zeros, List.replicate_succ, List.getD_cons_succ]
      exact ih k

theorem addVec_getD : ∀ (u v : List ℚ) (j : ℕ), j < u.length → j < v.length →
    (addVec u v).getD j 0 = u.getD j 0 + v.getD j 0 := by
  intro u
  induction u with
  | nil => intro v j h _; simp at h
  | cons a u ih =>
    intro v j hu hv
    cases v with
    | nil => simp at hv
    | cons b v =>
      cases j with
      | zero => rfl
      | succ k =>
        rw [addVec, List.zipWith_cons_cons, List.getD_cons_succ, List.getD_cons_succ,
          List.getD_cons_succ]
        exact ih v k (by simpa using hu) (by simpa using hv)

theorem vecMatMul_getD : ∀ (r : List ℚ) (b : List (List ℚ)) (w j : ℕ),
    (∀ u ∈ b, u.length = w) → j < w →
    (vecMatMul r b).getD j 0
      = (List.zipWith (fun c row => c * row.getD j 0) r b).sum := by
  intro r
  induction r with
  | nil =>
    intro b w j _ _
    rw [vecMatMul, List.zipWith_nil_left, sumVecs, List.foldr_nil]
    rw [List.zipWith_nil_left, List.sum_nil]
    exact zeros_getD _ _
  | cons c r ih =>
    intro b w j hb hj
    cases b with
    | nil =>
      rw [vecMatMul, List.zipWith_nil_right, sumVecs, List.foldr_nil]
      rw [List.zipWith_nil_right, List.sum_nil]
      exact zeros_getD _ _
    | cons row b =>
      have hrow : row.length = w := hb row (List.mem_cons_self _ _)
      have hbb : ∀ u ∈ b, u.length = w := fun u hu => hb u (List.mem_cons_of_mem _ hu)
      have hmw : matWidth (row :: b) = w := by simp [matWidth, hrow]
      have hS : ∀ u ∈ List.zipWith scaleVec r b, u.length = w := by
        intro u hu
        obtain ⟨cc, vv, hvv, rfl⟩ := zipWith_scaleVec_mem r b u hu
        rw [scaleVec_length]; exact hbb vv hvv
      have hlenS : (sumVecs w (List.zipWith scaleVec r b)).length = w := sumVecs_length _ _ hS
      have step1 : vecMatMul (c :: r) (row :: b)
          = addVec (scaleVec c row) (sumVecs w (List.zipWith scaleVec r b)) := by
        simp [vecMatMul, hmw, sumVecs]
      rw [step1, addVec_getD _ _ j (by rw [scaleVec_length, hrow]; exact hj)
        (by rw [hlenS]; exact hj)]
      rw [List.zipWith_cons_cons, List.sum_cons]
      congr 1
      · rw [scaleVec, getD_map_lt _ _ j 0 0 (by rw [hrow]; exact hj)]
      · cases b with
        | nil =>
          rw [List.zipWith_nil_right, sumVecs, List.foldr_nil, List.zipWith_nil_right,
            List.sum_nil]
          exact zeros_getD _ _
        | cons row2 b2 =>
          have hsv : sumVecs w (List.zipWith scaleVec r (row2 :: b2))
              = vecMatMul r (row2 :: b2) := by
            simp [vecMatMul, matWidth, hbb row2 (by simp)]
          rw [hsv]
          exact ih (row2 :: b2) w j hbb hj

theorem zipWith_mul_sum (j : ℕ) : ∀ (n : ℕ) (u : List ℚ) (l : List (List ℚ)),
    u.length = n → l.length = n →
    (List.zipWith (fun c row => c * row.getD j 0) u l).sum
      = ((List.range n).map (fun k => u.getD k 0 * (l.getD k []).getD j 0)).sum := by
  intro n
  induction n with
  | zero =>
    intro u l hu hl
    rw [List.length_eq_zero] at hu hl
    subst hu; subst hl
    rfl
  | succ m ih =>
    intro u l hu hl
    cases u with
    | nil => simp at hu
    | cons c u =>
      cases l with
      | nil => simp at hl
      | cons row l =>
        rw [List.zipWith_cons_cons, List.sum_cons, List.range_succ_eq_map, List.map_cons,
          List.sum_cons, List.getD_cons_zero, List.getD_cons_zero, List.map_map]
        congr 1
        rw [ih u l (by simpa using hu) (by simpa using hl)]
        congr 1

theorem toMat_matMul (a b : List (List ℚ)) (n : ℕ) (ha : a.length = n)
    (har : ∀ r ∈ a, r.length = n) (hbl : b.length = n) (hbr : ∀ r ∈ b, r.length = n) :
    toMat n (matMul a b) = toMat n a * toMat n b := by
  funext i j
  rw [Matrix.mul_apply]
  show ((matMul a b).getD i []).getD j 0 = _
  rw [matMul, getD_map_lt _ _ i [] [] (by rw [ha]; exact i.isLt)]
  rw [vecMatMul_getD _ b n j hbr j.isLt]
  rw [zipWith_mul_sum j n (a.getD i []) b
    (har _ (getD_mem_of_lt a i [] (by rw [ha]; exact i.isLt))) hbl]
  rw [sum_map_range, Finset.sum_range]
  rfl

theorem toMat_idMat (n : ℕ) : toMat n (idMat n) = 1 := by
  funext i j
  show ((idMat n).getD i []).getD j 0 = _
  rw [idMat, getD_map_lt _ _ i [] 0 (by simpa using i.isLt), getD_range _ i i.isLt,
    getD_map_lt _ _ j 0 0 (by simpa using j.isLt), getD_range _ j j.isLt,
    Matrix.one_apply]
  by_cases h : (i : ℕ) = (j : ℕ)
  · rw [if_pos h, if_pos (Fin.ext h)]
  · rw [if_neg h, if_neg (fun hc => h (Fin.val_eq_of_eq hc))]

theorem idMat_length (n : ℕ) : (idMat n).length = n := by
  simp [idMat]

theorem idMat_row_length (n : ℕ) : ∀ r ∈ idMat n, r.length = n := by
  intro r hr
  rw [idMat] at hr
  obtain ⟨i, _, rfl⟩ := List.mem_map.mp hr
  simp

theorem list_mat_ext (a b : List (List ℚ)) (n : ℕ) (ha : a.length = n)
    (har : ∀ r ∈ a, r.length = n) (hb : b.length = n) (hbr : ∀ r ∈ b, r.length = n)
    (h : toMat n a = toMat n b) : a = b := by
  apply List.ext_getElem (by rw [ha, hb])
  intro i h1 h2
  apply List.ext_getElem
  · rw [har a[i] (List.getElem_mem h1), hbr b[i] (List.getElem_mem h2)]
  · intro j hj1 hj2
    have hi : i < n := by rw [← ha]; exact h1
    have hj : j < n := by
      rw [← har a[i] (List.getElem_mem h1)]
      exact hj1
    have := congrFun (congrFun h ⟨i, hi⟩) ⟨j, hj⟩
    show a[i][j] = b[i][j]
    have ea : (a.getD i []).getD j 0 = a[i][j] := by
      rw [getD_eq_getElem a i [] h1, getD_eq_getElem _ j 0 hj1]
    have eb : (b.getD i []).getD j 0 = b[i][j] := by
      rw [getD_eq_getElem b i [] h2, getD_eq_getElem _ j 0 hj2]
    rw [← ea, ← eb]
    exact this

theorem matMul_length (a b : List (List ℚ)) : (matMul a b).length = a.length := by
  simp [matMul]

theorem matMul_row_length (a b : List (List ℚ)) (w : ℕ) (hb : ∀ u ∈ b, u.length = w)
    (hbne : b ≠ []) : ∀ r ∈ matMul a b, r.length = w := by
  intro r hr
  rw [matMul] at hr
  obtain ⟨u, _, rfl⟩ := List.mem_map.mp hr
  exact vecMatMul_length u b w hb hbne

theorem cofInv_is_inverse (l : List (List ℚ)) (n : ℕ) (hl : l.length = n)
    (hr : ∀ r ∈ l, r.length = n) (hd : detList l ≠ 0) :
    matMul l (cofInv l) = idMat n ∧ matMul (cofInv l) l = idMat n := by
  cases n with
  | zero =>
    rw [List.length_eq_zero] at hl
    subst hl
    exact ⟨rfl, rfl⟩
  | succ m =>
    have hlne : l ≠ [] := by
      intro heq
      rw [heq] at hl
      simp at hl
    have hcne : cofInv l ≠ [] := by
      intro heq
      have := cofInv_length l
      rw [heq, hl] at this
      simp at this
    have hcl : (cofInv l).length = m + 1 := by rw [cofInv_length, hl]
    have hcr : ∀ r ∈ cofInv l, r.length = m + 1 := by
      intro r hrr
      rw [cofInv_row_length l r hrr, hl]
    have hdet : detList l = (toMat (m + 1) l).det := detList_eq_det _ l hl hr
    have hAdet : (toMat (m + 1) l).det ≠ 0 := by rw [← hdet]; exact hd
    have hco : toMat (m + 1) (cofInv l)
        = (detList l)⁻¹ • Matrix.adjugate (toMat (m + 1) l) := toMat_cofInv l _ hl hr
    constructor
    · apply list_mat_ext _ _ (m + 1) (by rw [matMul_length, hl])
        (matMul_row_length l (cofInv l) (m + 1) hcr hcne) (idMat_length _)
        (idMat_row_length _)
      rw [toMat_matMul l (cofInv l) (m + 1) hl hr hcl hcr, toMat_idMat, hco,
        Matrix.mul_smul, Matrix.mul_adjugate, hdet, smul_smul,
        inv_mul_cancel₀ hAdet, one_smul]
    · apply list_mat_ext _ _ (m + 1) (by rw [matMul_length, hcl])
        (matMul_row_length (cofInv l) l (m + 1) hr hlne) (idMat_length _)
        (idMat_row_length _)
      rw [toMat_matMul (cofInv l) l (m + 1) hcl hcr hl hr, toMat_idMat, hco,
        Matrix.smul_mul, Matrix.adjugate_mul, hdet, smul_smul,
        inv_mul_cancel₀ hAdet, one_smul]

theorem create_shape_ok (aff : List (List ℚ)) (ics ocs : CoordinateSystem)
    (h1 : aff.length = ocs.ndim + 1) (h2 : ∀ r ∈ aff, r.length = ics.ndim + 1)
    (hd : ics.coord_dtype = ocs.coord_dtype) :
    AffineTransform.create aff ocs.coord_dtype ics ocs = .ok ⟨aff, ics, ocs⟩ := by
  obtain ⟨inames, iname, idt⟩ := ics
  obtain ⟨onames, oname, odt⟩ := ocs
  simp only [CoordinateSystem.ndim] at h1 h2
  simp only at hd
  subst hd
  simp only [AffineTransform.create, safe_dtype_same]
  rw [if_pos]
  exact ⟨h1, h2⟩

theorem inverse_none (t : AffineTransform)
    (h : ¬ (isSquare t.affine ∧ detList t.affine ≠ 0)) : t.inverse = none := by
  have hminv : matInv t.affine = none := by
    rw [matInv, if_neg h]
  unfold AffineTransform.inverse
  rw [hminv]

theorem square_ndims {t : AffineTransform} (hwf : CMap.wf (.affine t))
    (hsq : isSquare t.affine) :
    t.affine.length = t.input_coords.ndim + 1
      ∧ t.affine.length = t.output_coords.ndim + 1 := by
  have h1 := hwf.1.1
  have hne : t.affine ≠ [] := wf_ne_nil hwf.1
  have hhead : t.affine.headD [] ∈ t.affine := by
    cases ht : t.affine with
    | nil => exact absurd ht hne
    | cons r rest => simp
  have h2 : (t.affine.headD []).length = t.affine.length := hsq _ hhead
  have h3 : (t.affine.headD []).length = t.input_coords.ndim + 1 := hwf.1.2.1 _ hhead
  exact ⟨by omega, h1⟩

theorem inverse_some (t : AffineTransform) (hwf : CMap.wf (.affine t))
    (hsq : isSquare t.affine) (hd : detList t.affine ≠ 0) :
    t.inverse = some ⟨cofInv t.affine, t.output_coords, t.input_coords⟩ := by
  have hminv : matInv t.affine = some (cofInv t.affine) := by
    rw [matInv, if_pos ⟨hsq, hd⟩]
  obtain ⟨hin, hout⟩ := square_ndims hwf hsq
  have hcreate : AffineTransform.create (cofInv t.affine) t.input_coords.coord_dtype
      t.output_coords t.input_coords
      = .ok ⟨cofInv t.affine, t.output_coords, t.input_coords⟩ := by
    apply create_shape_ok
    · rw [cofInv_length]
      exact hin
    · intro r hr
      rw [cofInv_row_length t.affine r hr]
      exact hout
    · exact hwf.2.1.symm
  have h1 : t.inverse = (match AffineTransform.create (cofInv t.affine)
      t.input_coords.coord_dtype t.output_coords t.input_coords with
      | .ok a => some a
      | .error _ => none) := by
    unfold AffineTransform.inverse
    rw [hminv]
  rw [hcreate] at h1
  exact h1

/-- C6: for a well-formed `AffineTransform`, a singular (or non-square)
homogeneous matrix makes the `inverse` property yield the `None` sentinel
(no exception is modelled: `inverse` is a total function into an option);
an invertible matrix makes `inverse` an `AffineTransform` whose matrix is
the exact matrix inverse (two-sided: both products are the identity) with
the input and output coordinate systems swapped. -/
theorem claim_C6_inverse (t : AffineTransform) (hwf : CMap.wf (.affine t)) :
    (¬ (isSquare t.affine ∧ detList t.affine ≠ 0) → t.inverse = none)
      ∧ (isSquare t.affine → detList t.affine ≠ 0 →
        ∃ a : AffineTransform, t.inverse = some a
          ∧ matMul t.affine a.affine = idMat t.affine.length
          ∧ matMul a.affine t.affine = idMat t.affine.length
          ∧ a.input_coords = t.output_coords
          ∧ a.output_coords = t.input_coords) := by
  constructor
  · exact inverse_none t
  · intro hsq hd
    obtain ⟨hmul1, hmul2⟩ := cofInv_is_inverse t.affine t.affine.length rfl hsq hd
    exact ⟨⟨cofInv t.affine, t.output_coords, t.input_coords⟩,
      inverse_some t hwf hsq hd, hmul1, hmul2, rfl, rfl⟩

theorem claim_C6_witness :
    (¬ (isSquare (AffineTransform.affine ⟨[[2, 0], [0, 1]], ⟨["i"], "", 64⟩, ⟨["x"], "", 64⟩⟩)
        ∧ detList (AffineTransform.affine ⟨[[2, 0], [0, 1]], ⟨["i"], "", 64⟩,
            ⟨["x"], "", 64⟩⟩) ≠ 0) →
      AffineTransform.inverse ⟨[[2, 0], [0, 1]], ⟨["i"], "", 64⟩, ⟨["x"], "", 64⟩⟩ = none)
    ∧ (isSquare (AffineTransform.affine ⟨[[2, 0], [0, 1]], ⟨["i"], "", 64⟩, ⟨["x"], "", 64⟩⟩) →
      detList (AffineTransform.affine ⟨[[2, 0], [0, 1]], ⟨["i"], "", 64⟩, ⟨["x"], "", 64⟩⟩) ≠ 0 →
        ∃ a : AffineTransform,
          AffineTransform.inverse ⟨[[2, 0], [0, 1]], ⟨["i"], "", 64⟩, ⟨["x"], "", 64⟩⟩ = some a
          ∧ matMul [[2, 0], [0, 1]] a.affine = idMat 2
          ∧ matMul a.affine [[2, 0], [0, 1]] = idMat 2
          ∧ a.input_coords = ⟨["x"], "", 64⟩
          ∧ a.output_coords = ⟨["i"], "", 64⟩) :=
  claim_C6_inverse ⟨[[2, 0], [0, 1]], ⟨["i"], "", 64⟩, ⟨["x"], "", 64⟩⟩
    ⟨by decide, by decide, by decide, by decide⟩

/-- C10: for a well-formed `AffineTransform` whose matrix is singular, the
`inverse_function` property raises the `ValueError` (it does not return the
`None` sentinel), even though the `inverse` property of the same transform
yields the sentinel; for an invertible matrix it returns the forward
function of the inverse transform. -/
theorem claim_C10_inverse_function (t : AffineTransform) (hwf : CMap.wf (.affine t)) :
    (¬ (isSquare t.affine ∧ detList t.affine ≠ 0) →
        t.inverse_function = .error "There is no inverse for this affine"
          ∧ t.inverse = none)
      ∧ (isSquare t.affine → detList t.affine ≠ 0 →
        ∃ a : AffineTransform, t.inverse = some a
          ∧ t.inverse_function = .ok a.function) := by
  constructor
  · intro h
    have hnone := inverse_none t h
    constructor
    · rw [AffineTransform.inverse_function, hnone]
    · exact hnone
  · intro hsq hd
    have hsome := inverse_some t hwf hsq hd
    refine ⟨⟨cofInv t.affine, t.output_coords, t.input_coords⟩, hsome, ?_⟩
    rw [AffineTransform.inverse_function, hsome]

theorem claim_C10_witness :
    (¬ (isSquare (AffineTransform.affine ⟨[[0, 0], [0, 1]], ⟨["i"], "", 64⟩, ⟨["x"], "", 64⟩⟩)
        ∧ detList (AffineTransform.affine ⟨[[0, 0], [0, 1]], ⟨["i"], "", 64⟩,
            ⟨["x"], "", 64⟩⟩) ≠ 0) →
      AffineTransform.inverse_function ⟨[[0, 0], [0, 1]], ⟨["i"], "", 64⟩, ⟨["x"], "", 64⟩⟩
          = .error "There is no inverse for this affine"
        ∧ AffineTransform.inverse ⟨[[0, 0], [0, 1]], ⟨["i"], "", 64⟩, ⟨["x"], "", 64⟩⟩ = none)
    ∧ (isSquare (AffineTransform.affine ⟨[[0, 0], [0, 1]], ⟨["i"], "", 64⟩, ⟨["x"], "", 64⟩⟩) →
      detList (AffineTransform.affine ⟨[[0, 0], [0, 1]], ⟨["i"], "", 64⟩, ⟨["x"], "", 64⟩⟩) ≠ 0 →
        ∃ a : AffineTransform,
          AffineTransform.inverse ⟨[[0, 0], [0, 1]], ⟨["i"], "", 64⟩, ⟨["x"], "", 64⟩⟩ = some a
          ∧ AffineTransform.inverse_function ⟨[[0, 0], [0, 1]], ⟨["i"], "", 64⟩,
              ⟨["x"], "", 64⟩⟩ = .ok a.function) :=
  claim_C10_inverse_function ⟨[[0, 0], [0, 1]], ⟨["i"], "", 64⟩, ⟨["x"], "", 64⟩⟩
    ⟨by decide, by decide, by decide, by decide⟩

/-! ### renamed_input on a float32 map (C7) and copy independence (C9) -/

/-- C7: the code-level behaviour at the failing input.  `renamed_input` on a
`CoordinateMap` with `float32` coordinate precision and a perfectly valid
key mapping does not return the renamed transform the spec promises: the
identity `AffineTransform` it builds from `np.identity` carries `float64`,
`safe_dtype` promotes the identity map's coordinate systems to `float64`,
and the composition seam check then fails with the coordinate-mismatch
`ValueError` (contrast `reordered_input`, which casts its permutation matrix
to the input precision first). -/
theorem claim_C7_renamed_input_float32_bug :
    renamed_input (.affine ⟨[[1, 0], [0, 1]], ⟨["i"], "", 32⟩, ⟨["x"], "", 32⟩⟩)
        [("i", "a")] ""
      = .error (seamMsg ⟨["i"], "", 32⟩ ⟨["i"], "", 64⟩) := rfl

theorem getD_append_singleton_len {α : Type} (l : List α) (a d : α) :
    (l ++ [a]).getD l.length d = a := by
  induction l with
  | nil => rfl
  | cons x l ih =>
    rw [List.cons_append, List.length_cons, List.getD_cons_succ]
    exact ih

theorem getD_set_ne {α : Type} (l : List α) (n m : ℕ) (x : α) (d : α) (h : n ≠ m) :
    (l.set n x).getD m d = l.getD m d := by
  by_cases hm : m < l.length
  · rw [getD_eq_getElem _ _ _ (by simpa using hm), getD_eq_getElem _ _ _ hm,
      List.getElem_set_ne h]
  · have h1 : l.length ≤ m := by omega
    rw [List.getD_eq_getElem?_getD, List.getD_eq_getElem?_getD,
      List.getElem?_eq_none (by simpa using h1), List.getElem?_eq_none h1]

/-- C9: `copy()` of an `AffineTransform` keeps the coordinate systems and the
matrix value, but allocates an independent matrix: mutating any entry of the
copy's matrix leaves the original's matrix unchanged, and vice versa. -/
theorem claim_C9_copy_independent (s : MatStore) (t : AffineTransformRef)
    (href : t.affine_ref < s.mats.length) :
    ((AffineTransformRef.copy s t).2.input_coords = t.input_coords)
      ∧ ((AffineTransformRef.copy s t).2.output_coords = t.output_coords)
      ∧ ((AffineTransformRef.copy s t).1.read (AffineTransformRef.copy s t).2.affine_ref
          = s.read t.affine_ref)
      ∧ (∀ i j v, ((AffineTransformRef.copy s t).1.write
            (AffineTransformRef.copy s t).2.affine_ref i j v).read t.affine_ref
          = s.read t.affine_ref)
      ∧ (∀ i j v, ((AffineTransformRef.copy s t).1.write t.affine_ref i j v).read
            (AffineTransformRef.copy s t).2.affine_ref
          = s.read t.affine_ref) := by
  have hne : s.mats.length ≠ t.affine_ref := by omega
  have hread : (AffineTransformRef.copy s t).1.read (AffineTransformRef.copy s t).2.affine_ref
      = s.read t.affine_ref := by
    show (s.mats ++ [s.read t.affine_ref]).getD s.mats.length [] = s.read t.affine_ref
    exact getD_append_singleton_len _ _ _
  refine ⟨rfl, rfl, hread, ?_, ?_⟩
  · intro i j v
    show ((s.mats ++ [s.read t.affine_ref]).set s.mats.length _).getD t.affine_ref []
      = s.read t.affine_ref
    rw [getD_set_ne _ _ _ _ _ hne]
    show (s.mats ++ [s.read t.affine_ref]).getD t.affine_ref [] = s.read t.affine_ref
    rw [List.getD_append _ _ _ _ href]
    rfl
  · intro i j v
    show ((s.mats ++ [s.read t.affine_ref]).set t.affine_ref _).getD s.mats.length []
      = s.read t.affine_ref
    rw [getD_set_ne _ _ _ _ _ (by omega)]
    exact getD_append_singleton_len _ _ _

theorem claim_C9_witness :
    ((AffineTransformRef.copy ⟨[[[1, 2], [3, 4]]]⟩
        ⟨0, ⟨["i"], "", 64⟩, ⟨["x"], "", 64⟩⟩).2.input_coords = ⟨["i"], "", 64⟩)
      ∧ ((AffineTransformRef.copy ⟨[[[1, 2], [3, 4]]]⟩
          ⟨0, ⟨["i"], "", 64⟩, ⟨["x"], "", 64⟩⟩).2.output_coords = ⟨["x"], "", 64⟩)
      ∧ ((AffineTransformRef.copy ⟨[[[1, 2], [3, 4]]]⟩
          ⟨0, ⟨["i"], "", 64⟩, ⟨["x"], "", 64⟩⟩).1.read
            (AffineTransformRef.copy ⟨[[[1, 2], [3, 4]]]⟩
              ⟨0, ⟨["i"], "", 64⟩, ⟨["x"], "", 64⟩⟩).2.affine_ref
          = MatStore.read ⟨[[[1, 2], [3, 4]]]⟩ 0)
      ∧ (∀ i j v, ((AffineTransformRef.copy ⟨[[[1, 2], [3, 4]]]⟩
            ⟨0, ⟨["i"], "", 64⟩, ⟨["x"], "", 64⟩⟩).1.write
              (AffineTransformRef.copy ⟨[[[1, 2], [3, 4]]]⟩
                ⟨0, ⟨["i"], "", 64⟩, ⟨["x"], "", 64⟩⟩).2.affine_ref i j v).read 0
          = MatStore.read ⟨[[[1, 2], [3, 4]]]⟩ 0)
      ∧ (∀ i j v, ((AffineTransformRef.copy ⟨[[[1, 2], [3, 4]]]⟩
            ⟨0, ⟨["i"], "", 64⟩, ⟨["x"], "", 64⟩⟩).1.write 0 i j v).read
              (AffineTransformRef.copy ⟨[[[1, 2], [3, 4]]]⟩
                ⟨0, ⟨["i"], "", 64⟩, ⟨["x"], "", 64⟩⟩).2.affine_ref
          = MatStore.read ⟨[[[1, 2], [3, 4]]]⟩ 0) :=
  claim_C9_copy_independent ⟨[[[1, 2], [3, 4]]]⟩ ⟨0, ⟨["i"], "", 64⟩, ⟨["x"], "", 64⟩⟩
    (by decide)

/-! ### reordered_input (C8) -/

theorem compose_ok_result (cs : List CMap) (hne : cs ≠ []) (hwf : ∀ c ∈ cs, c.wf)
    (hch : chained cs = true) :
    ∃ r : CMap, compose cs = .ok r ∧ r.wf
      ∧ r.input_coords = (cs.getLast hne).input_coords
      ∧ r.output_coords = (cs.head hne).output_coords := by
  have hdec : cs.dropLast ++ [cs.getLast hne] = cs := List.dropLast_append_getLast hne
  have hmemd : ∀ c ∈ cs.dropLast, c ∈ cs := by
    intro c hc
    rw [← hdec]
    exact List.mem_append_left _ hc
  have hwfd : ∀ c ∈ cs.dropLast, c.wf := fun c hc => hwf c (hmemd c hc)
  have hlastwf : (cs.getLast hne).wf := hwf _ (List.getLast_mem hne)
  have hchd : chained (cs.dropLast ++ [cs.getLast hne]) = true := by
    rw [hdec]
    exact hch
  cases hall : cs.all CMap.isAffine with
  | true =>
    have haff : ∀ c ∈ cs, c.isAffine = true := List.all_eq_true.mp hall
    refine ⟨_, compose_all_affine_core cs hne haff hwf hch, ?_, rfl, rfl⟩
    have haffd : ∀ c ∈ cs.dropLast, c.isAffine = true := fun c hc => haff c (hmemd c hc)
    have hlastaff : (cs.getLast hne).isAffine = true := haff _ (List.getLast_mem hne)
    obtain ⟨hP, _⟩ := chainFun_affine cs.dropLast (cs.getLast hne) haffd hwfd hlastaff
      hlastwf hchd
    refine ⟨?_, ?_, ?_, ?_⟩
    · show wfAffineMat ((cs.head hne).output_coords.ndim) ((cs.getLast hne).input_coords.ndim)
        (matProdList (cs.map CMap.affMat))
      have hmap : cs.map CMap.affMat
          = (cs.dropLast ++ [cs.getLast hne]).map CMap.affMat := by rw [hdec]
      rw [hmap, head_eq_dropLast_headD cs hne]
      exact hP
    · show (cs.getLast hne).input_coords.coord_dtype = (cs.head hne).output_coords.coord_dtype
      rw [head_eq_dropLast_headD cs hne,
        chain_dtype cs.dropLast (cs.getLast hne) haffd hwfd hlastaff hlastwf hchd]
    · exact wf_nodup_input hlastwf
    · show (cs.head hne).output_coords.coord_names.Nodup
      exact wf_nodup_output (hwf _ (List.head_mem hne))
  | false =>
    obtain ⟨g, hgeq, hgwf, hgin, hgout, _⟩ :=
      composeAux_ok cs.dropLast (cs.getLast hne) hwfd hlastwf hchd
    refine ⟨g, ?_, hgwf, hgin, ?_⟩
    · rw [compose_eq_ok_aux cs (cs.getLast hne) g (List.getLast?_eq_getLast cs hne) hgeq,
        if_neg (by simp [hall])]
      rfl
    · rw [hgout, ← head_eq_dropLast_headD cs hne]

theorem permMatrix_length (ndim : ℕ) (ord : List ℕ) :
    (permMatrix ndim ord).length = ndim + 1 := by
  simp [permMatrix]

theorem permMatrix_row_length (ndim : ℕ) (ord : List ℕ) :
    ∀ r ∈ permMatrix ndim ord, r.length = ndim + 1 := by
  intro r hr
  rw [permMatrix] at hr
  obtain ⟨i, _, rfl⟩ := List.mem_map.mp hr
  simp

theorem permMatrix_wf (ndim : ℕ) (ord : List ℕ) (hbound : ∀ o ∈ ord, o < ndim) :
    wfAffineMat ndim ndim (permMatrix ndim ord) := by
  refine ⟨permMatrix_length ndim ord, permMatrix_row_length ndim ord, ?_⟩
  rw [permMatrix, List.range_succ, List.map_append, List.map_singleton,
    List.getLast?_concat]
  congr 1
  rw [homRow]
  have h1 : (List.range ndim).map (fun c =>
      if ndim = ndim ∧ c = ndim then (1 : ℚ)
      else if c < ord.length ∧ ord.getD c (ndim + 1) = ndim then 1 else 0)
      = (List.range ndim).map (fun _ => (0 : ℚ)) := by
    apply List.map_congr_left
    intro c hc
    rw [List.mem_range] at hc
    rw [if_neg (by omega), if_neg]
    rintro ⟨hcl, hco⟩
    have := hbound _ (getD_mem_of_lt ord c (ndim + 1) hcl)
    omega
  rw [List.map_append, List.map_singleton, h1, List.map_const',
    List.length_range, if_pos ⟨rfl, rfl⟩]

theorem reordered_input_ok (c : CMap) (hwf : c.wf) (ord : List ℕ) (nm : String)
    (hlen : ord.length = c.input_coords.ndim)
    (hbound : ∀ o ∈ ord, o < c.input_coords.ndim)
    (hnodup : (ord.map (fun i => c.input_coords.coord_names.getD i "")).Nodup) :
    ∃ r : CMap, reordered_input c (.ints ord) nm = .ok r
      ∧ r.wf
      ∧ r.input_coords = ⟨ord.map (fun i => c.input_coords.coord_names.getD i ""),
          if nm = "" then c.input_coords.name else nm, c.input_coords.coord_dtype⟩
      ∧ r.output_coords = c.output_coords := by
  have hnaxlen : (ord.map (fun i => c.input_coords.coord_names.getD i "")).length
      = c.input_coords.ndim := by
    rw [List.length_map, hlen]
  have hmk : CoordinateSystem.mkChecked
      (ord.map (fun i => c.input_coords.coord_names.getD i ""))
      (if nm = "" then c.input_coords.name else nm) c.input_coords.coord_dtype
      = .ok ⟨ord.map (fun i => c.input_coords.coord_names.getD i ""),
          if nm = "" then c.input_coords.name else nm, c.input_coords.coord_dtype⟩ := by
    rw [CoordinateSystem.mkChecked, if_pos hnodup]
  have hA : AffineTransform.create (permMatrix c.input_coords.ndim ord)
      c.input_coords.coord_dtype
      ⟨ord.map (fun i => c.input_coords.coord_names.getD i ""),
        if nm = "" then c.input_coords.name else nm, c.input_coords.coord_dtype⟩
      c.input_coords
      = .ok ⟨permMatrix c.input_coords.ndim ord,
          ⟨ord.map (fun i => c.input_coords.coord_names.getD i ""),
            if nm = "" then c.input_coords.name else nm, c.input_coords.coord_dtype⟩,
          c.input_coords⟩ := by
    apply create_shape_ok
    · exact permMatrix_length _ _
    · intro r hr
      rw [permMatrix_row_length _ _ r hr]
      show c.input_coords.ndim + 1 = _
      rw [CoordinateSystem.ndim]
      show c.input_coords.ndim + 1
        = (ord.map (fun i => c.input_coords.coord_names.getD i "")).length + 1
      rw [hnaxlen]
    · rfl
  have hAwf : CMap.wf (.affine ⟨permMatrix c.input_coords.ndim ord,
      ⟨ord.map (fun i => c.input_coords.coord_names.getD i ""),
        if nm = "" then c.input_coords.name else nm, c.input_coords.coord_dtype⟩,
      c.input_coords⟩) := by
    refine ⟨?_, rfl, hnodup, wf_nodup_input hwf⟩
    show wfAffineMat c.input_coords.ndim
      (⟨ord.map (fun i => c.input_coords.coord_names.getD i ""),
        if nm = "" then c.input_coords.name else nm,
        c.input_coords.coord_dtype⟩ : CoordinateSystem).ndim
      (permMatrix c.input_coords.ndim ord)
    show wfAffineMat c.input_coords.ndim
      (ord.map (fun i => c.input_coords.coord_names.getD i "")).length
      (permMatrix c.input_coords.ndim ord)
    rw [hnaxlen]
    exact permMatrix_wf _ _ hbound
  have hch : chained [c, .affine ⟨permMatrix c.input_coords.ndim ord,
      ⟨ord.map (fun i => c.input_coords.coord_names.getD i ""),
        if nm = "" then c.input_coords.name else nm, c.input_coords.coord_dtype⟩,
      c.input_coords⟩] = true := by
    show (CoordinateSystem.eq c.input_coords c.input_coords && true) = true
    rw [eq_refl_cs]
    rfl
  obtain ⟨r, hreq, hrwf, hrin, hrout⟩ := compose_ok_result
    [c, .affine ⟨permMatrix c.input_coords.ndim ord,
      ⟨ord.map (fun i => c.input_coords.coord_names.getD i ""),
        if nm = "" then c.input_coords.name else nm, c.input_coords.coord_dtype⟩,
      c.input_coords⟩] (by simp)
    (by
      intro x hx
      rw [List.mem_cons, List.mem_singleton] at hx
      rcases hx with rfl | rfl
      · exact hwf
      · exact hAwf) hch
  refine ⟨r, ?_, hrwf, ?_, ?_⟩
  · have hbody : reordered_input c (.ints ord) nm = (do
        let newincoords ← CoordinateSystem.mkChecked
          (ord.map (fun i => c.input_coords.coord_names.getD i ""))
          (if nm = "" then c.input_coords.name else nm) c.input_coords.coord_dtype
        let A ← AffineTransform.create (permMatrix c.input_coords.ndim ord)
          c.input_coords.coord_dtype newincoords c.input_coords
        compose [c, .affine A]) := rfl
    rw [hbody, hmk, except_bind_ok, hA, except_bind_ok]
    exact hreq
  · rw [hrin]
    rfl
  · rw [hrout]
    rfl

theorem indexOf_getD_of_nodup : ∀ (l : List String), l.Nodup → ∀ i, i < l.length →
    l.indexOf (l.getD i "") = i := by
  intro l
  induction l with
  | nil =>
    intro _ i h
    simp at h
  | cons a l ih =>
    intro hnd i hi
    cases i with
    | zero =>
      rw [List.getD_cons_zero]
      exact List.indexOf_cons_self a l
    | succ k =>
      rw [List.getD_cons_succ]
      have hmem : l.getD k "" ∈ l := getD_mem_of_lt l k "" (by simpa using hi)
      have hne : l.getD k "" ≠ a := by
        intro heq
        rw [heq] at hmem
        exact (List.nodup_cons.mp hnd).1 hmem
      rw [List.indexOf_cons_ne l hne.symm, ih (List.nodup_cons.mp hnd).2 k (by simpa using hi)]

theorem map_getD_reverse_range (l : List String) (n : ℕ) (h : l.length = n) :
    (List.range n).reverse.map (fun i => l.getD i "") = l.reverse := by
  rw [List.map_reverse, map_range_getD l n "" h]

/-- C8: `reordered_input` with the order omitted (full reversal) applied twice
restores the original input axis names; the omitted form is the same
computation as the explicit integer-position reversal; and an order given by
axis names produces the same result as the corresponding integer positions. -/
theorem claim_C8_reordered_input (c : CMap) (hwf : c.wf) :
    (∃ r1 r2 : CMap, reordered_input c .omitted "" = .ok r1
      ∧ reordered_input r1 .omitted "" = .ok r2
      ∧ r2.input_coords.coord_names = c.input_coords.coord_names)
      ∧ (∀ nm, reordered_input c .omitted nm
        = reordered_input c (.ints ((List.range c.input_coords.ndim).reverse)) nm)
      ∧ (∀ (nm : String) (ints : List ℕ), (∀ i ∈ ints, i < c.input_coords.ndim) →
        reordered_input c
            (.names (ints.map (fun i => c.input_coords.coord_names.getD i ""))) nm
          = reordered_input c (.ints ints) nm) := by
  refine ⟨?_, fun _ => rfl, ?_⟩
  · have hrev : (List.range c.input_coords.ndim).reverse.map
        (fun i => c.input_coords.coord_names.getD i "")
        = c.input_coords.coord_names.reverse :=
      map_getD_reverse_range _ _ rfl
    obtain ⟨r1, h1, hw1, hin1, hout1⟩ := reordered_input_ok c hwf
      ((List.range c.input_coords.ndim).reverse) ""
      (by simp)
      (by
        intro o ho
        rw [List.mem_reverse, List.mem_range] at ho
        exact ho)
      (by
        rw [hrev]
        exact List.nodup_reverse.mpr (wf_nodup_input hwf))
    rw [hrev] at hin1
    have hr1names : r1.input_coords.coord_names = c.input_coords.coord_names.reverse := by
      rw [hin1]
    have hr1ndim : r1.input_coords.ndim = c.input_coords.ndim := by
      rw [CoordinateSystem.ndim, hr1names, List.length_reverse]
      rfl
    have hrev1 : (List.range r1.input_coords.ndim).reverse.map
        (fun i => r1.input_coords.coord_names.getD i "")
        = c.input_coords.coord_names := by
      rw [map_getD_reverse_range _ _ ?hh, hr1names, List.reverse_reverse]
      case hh =>
        rw [hr1names, List.length_reverse, hr1ndim]
        rfl
    obtain ⟨r2, h2, hw2, hin2, hout2⟩ := reordered_input_ok r1 hw1
      ((List.range r1.input_coords.ndim).reverse) ""
      (by simp)
      (by
        intro o ho
        rw [List.mem_reverse, List.mem_range] at ho
        exact ho)
      (by
        rw [hrev1]
        exact wf_nodup_input hwf)
    refine ⟨r1, r2, h1, h2, ?_⟩
    rw [hin2]
    show (List.range r1.input_coords.ndim).reverse.map
        (fun i => r1.input_coords.coord_names.getD i "")
      = c.input_coords.coord_names
    exact hrev1
  · intro nm ints hb
    have h : (ints.map (fun i => c.input_coords.coord_names.getD i "")).map
        (fun s => c.input_coords.coord_names.indexOf s) = ints := by
      rw [List.map_map]
      have : ∀ i ∈ ints,
          ((fun s => c.input_coords.coord_names.indexOf s)
            ∘ (fun i => c.input_coords.coord_names.getD i "")) i = id i := by
        intro i hi
        show c.input_coords.coord_names.indexOf (c.input_coords.coord_names.getD i "") = i
        exact indexOf_getD_of_nodup _ (wf_nodup_input hwf) i (hb i hi)
      rw [List.map_congr_left this, List.map_id]
    show reordered_input c (.names (ints.map (fun i => c.input_coords.coord_names.getD i ""))) nm
      = reordered_input c (.ints ints) nm
    simp only [reordered_input]
    rw [h]

theorem claim_C8_witness :
    (∃ r1 r2 : CMap,
      reordered_input (.affine ⟨[[1, 0, 0], [0, 2, 0], [0, 0, 1]], ⟨["i", "j"], "in", 64⟩,
          ⟨["x", "y"], "out", 64⟩⟩) .omitted "" = .ok r1
      ∧ reordered_input r1 .omitted "" = .ok r2
      ∧ r2.input_coords.coord_names = ["i", "j"])
      ∧ (∀ nm, reordered_input (.affine ⟨[[1, 0, 0], [0, 2, 0], [0, 0, 1]],
          ⟨["i", "j"], "in", 64⟩, ⟨["x", "y"], "out", 64⟩⟩) .omitted nm
        = reordered_input (.affine ⟨[[1, 0, 0], [0, 2, 0], [0, 0, 1]],
            ⟨["i", "j"], "in", 64⟩, ⟨["x", "y"], "out", 64⟩⟩)
          (.ints ((List.range 2).reverse)) nm)
      ∧ (∀ (nm : String) (ints : List ℕ), (∀ i ∈ ints, i < 2) →
        reordered_input (.affine ⟨[[1, 0, 0], [0, 2, 0], [0, 0, 1]],
            ⟨["i", "j"], "in", 64⟩, ⟨["x", "y"], "out", 64⟩⟩)
            (.names (ints.map (fun i => (["i", "j"] : List String).getD i ""))) nm
          = reordered_input (.affine ⟨[[1, 0, 0], [0, 2, 0], [0, 0, 1]],
              ⟨["i", "j"], "in", 64⟩, ⟨["x", "y"], "out", 64⟩⟩) (.ints ints) nm) :=
  claim_C8_reordered_input
    (.affine ⟨[[1, 0, 0], [0, 2, 0], [0, 0, 1]], ⟨["i", "j"], "in", 64⟩,
      ⟨["x", "y"], "out", 64⟩⟩)
    ⟨by decide, by decide, by decide, by decide⟩

theorem callD_ok (c : CMap) (hwf : c.wf) (x : List ℚ) (hx : x.length = c.input_coords.ndim) :
    c.callD x = c.function x := by
  rw [CMap.callD, call_ok c x hx (wf_function_length hwf x hx)]
  rfl

theorem wf_matWidth {m k : ℕ} {t : List (List ℚ)} (h : wfAffineMat m k t) :
    matWidth t = k + 1 := by
  cases t with
  | nil => exact absurd rfl (wf_ne_nil h)
  | cons r l =>
    show r.length = k + 1
    exact h.2.1 r (List.mem_cons_self r l)

theorem blockCombine_wf {m1 k1 m2 k2 : ℕ} {t u : List (List ℚ)}
    (ht : wfAffineMat m1 k1 t) (hu : wfAffineMat m2 k2 u) :
    wfAffineMat (m1 + m2) (k1 + k2) (blockCombine t u) := by
  rw [blockCombine, wf_matWidth ht, wf_matWidth hu]
  simp only [Nat.add_sub_cancel]
  refine ⟨?_, ?_, ?_⟩
  · simp only [List.length_append, List.length_map, List.length_singleton,
      wf_dropLast_length ht, wf_dropLast_length hu]
  · intro r hr
    simp only [List.mem_append, List.mem_map, List.mem_singleton] at hr
    rcases hr with (⟨s, hs, rfl⟩ | ⟨s, hs, rfl⟩) | rfl
    · have hsl : s.length = k1 + 1 := wf_row_length ht s hs
      simp only [List.length_append, List.length_dropLast, List.length_singleton,
        zeros, List.length_replicate, hsl]
      omega
    · have hsl : s.length = k2 + 1 := wf_row_length hu s hs
      simp only [List.length_append, zeros, List.length_replicate, hsl]
      omega
    · rw [homRow, List.length_append, List.length_replicate, List.length_singleton]
  · exact List.getLast?_concat _

theorem blockCombine_apply {m1 k1 m2 k2 : ℕ} {t u : List (List ℚ)}
    (ht : wfAffineMat m1 k1 t) (hu : wfAffineMat m2 k2 u)
    (x : List ℚ) (hx : x.length = k1 + k2) :
    affApply (blockCombine t u) x = affApply t (x.take k1) ++ affApply u (x.drop k1) := by
  have hxt : (x.take k1).length = k1 := by
    rw [List.length_take]
    omega
  have hxd : (x.drop k1).length = k2 := by
    rw [List.length_drop]
    omega
  rw [affApply_eq_map, affApply_eq_map, affApply_eq_map, blockCombine, wf_matWidth ht,
    wf_matWidth hu]
  simp only [Nat.add_sub_cancel]
  rw [List.dropLast_concat, List.map_append, List.map_map, List.map_map]
  congr 1
  · apply List.map_congr_left
    intro s hs
    have hsl : s.length = k1 + 1 := wf_row_length ht s hs
    show dot x ((s.dropLast ++ zeros k2 ++ [s.getLastD 0]).dropLast)
        + (s.dropLast ++ zeros k2 ++ [s.getLastD 0]).getLastD 0
      = dot (x.take k1) s.dropLast + s.getLastD 0
    rw [List.dropLast_concat, List.getLastD_concat]
    conv_lhs => rw [← List.take_append_drop k1 x]
    rw [dot_append _ _ _ _ (by rw [hxt, List.length_dropLast, hsl]; omega)]
    rw [dot_zeros_right, add_zero]
  · apply List.map_congr_left
    intro s hs
    have hsl : s.length = k2 + 1 := wf_row_length hu s hs
    have hsne : s ≠ [] := by
      intro h
      rw [h] at hsl
      simp at hsl
    show dot x ((zeros k1 ++ s).dropLast) + (zeros k1 ++ s).getLastD 0
      = dot (x.drop k1) s.dropLast + s.getLastD 0
    conv_lhs => rw [← dropLast_concat_getLastD s hsne, ← List.append_assoc]
    rw [List.dropLast_concat, List.getLastD_concat]
    conv_lhs => rw [← List.take_append_drop k1 x]
    rw [dot_append _ _ _ _ (by rw [hxt, zeros, List.length_replicate])]
    rw [dot_zeros_right, zero_add]

theorem productFunction_length (cmaps : List CMap) (hwf : ∀ c ∈ cmaps, c.wf) :
    ∀ x : List ℚ, x.length = (cmaps.map (fun c => c.input_coords.ndim)).sum →
      (productFunction cmaps x).length = (cmaps.map (fun c => c.output_coords.ndim)).sum := by
  induction cmaps with
  | nil =>
    intro x hx
    rfl
  | cons c rest ih =>
    intro x hx
    simp only [List.map_cons, List.sum_cons] at hx ⊢
    have hc := hwf c (List.mem_cons_self c rest)
    have hxt : (x.take c.input_coords.ndim).length = c.input_coords.ndim := by
      rw [List.length_take]
      omega
    have hxd : (x.drop c.input_coords.ndim).length
        = (rest.map (fun c => c.input_coords.ndim)).sum := by
      rw [List.length_drop]
      omega
    show (c.callD (x.take c.input_coords.ndim)
        ++ productFunction rest (x.drop c.input_coords.ndim)).length = _
    rw [List.length_append, callD_ok c hc _ hxt, wf_function_length hc _ hxt,
      ih (fun d hd => hwf d (List.mem_cons_of_mem c hd)) _ hxd]

theorem productFunction_affine (cmaps : List CMap) (hwf : ∀ c ∈ cmaps, c.wf)
    (ha : cmaps.all CMap.isAffine = true) (hne : cmaps ≠ []) :
    wfAffineMat ((cmaps.map (fun c => c.output_coords.ndim)).sum)
        ((cmaps.map (fun c => c.input_coords.ndim)).sum)
        (blockDiagList (cmaps.map CMap.affMat))
      ∧ ∀ x : List ℚ, x.length = (cmaps.map (fun c => c.input_coords.ndim)).sum →
        productFunction cmaps x = affApply (blockDiagList (cmaps.map CMap.affMat)) x := by
  induction cmaps with
  | nil => exact absurd rfl hne
  | cons c rest ih =>
    have hc := hwf c (List.mem_cons_self c rest)
    have hca : c.isAffine = true := by
      rw [List.all_cons, Bool.and_eq_true] at ha
      exact ha.1
    have hcwf : wfAffineMat c.output_coords.ndim c.input_coords.ndim c.affMat :=
      affine_wfMat hca hc
    cases rest with
    | nil =>
      constructor
      · simpa using hcwf
      · intro x hx
        simp only [List.map_cons, List.map_nil, List.sum_cons, List.sum_nil, add_zero] at hx
        show c.callD (x.take c.input_coords.ndim)
            ++ productFunction [] (x.drop c.input_coords.ndim)
          = affApply (blockDiagList [c.affMat]) x
        rw [List.take_of_length_le (le_of_eq hx), callD_ok c hc x hx,
          affine_function_eq hca]
        show affApply c.affMat x ++ [] = affApply (blockDiagList [c.affMat]) x
        rw [List.append_nil]
        rfl
    | cons c2 rest2 =>
      have hrest_wf : ∀ d ∈ c2 :: rest2, d.wf := fun d hd => hwf d (List.mem_cons_of_mem c hd)
      have hrest_a : (c2 :: rest2).all CMap.isAffine = true := by
        rw [List.all_cons, Bool.and_eq_true] at ha
        exact ha.2
      obtain ⟨ihwf, ihap⟩ := ih hrest_wf hrest_a (by simp)
      have hbd : blockDiagList ((c :: c2 :: rest2).map CMap.affMat)
          = blockCombine c.affMat (blockDiagList ((c2 :: rest2).map CMap.affMat)) := rfl
      constructor
      · rw [hbd]
        simpa only [List.map_cons, List.sum_cons] using blockCombine_wf hcwf ihwf
      · intro x hx
        simp only [List.map_cons, List.sum_cons] at hx
        have hx' : x.length = c.input_coords.ndim
            + ((c2 :: rest2).map (fun c => c.input_coords.ndim)).sum := by
          rw [hx]
          simp [List.map_cons, List.sum_cons]
        have hxt : (x.take c.input_coords.ndim).length = c.input_coords.ndim := by
          rw [List.length_take]
          omega
        have hxd : (x.drop c.input_coords.ndim).length
            = ((c2 :: rest2).map (fun c => c.input_coords.ndim)).sum := by
          rw [List.length_drop, hx']
          omega
        show c.callD (x.take c.input_coords.ndim)
            ++ productFunction (c2 :: rest2) (x.drop c.input_coords.ndim) = _
        rw [hbd, blockCombine_apply hcwf ihwf x hx', callD_ok c hc _ hxt,
          affine_function_eq hca, ihap _ hxd]

theorem coordsys_product_ok (css : List CoordinateSystem) (hne : css ≠ [])
    (hnd : ((css.map CoordinateSystem.coord_names).flatten).Nodup) :
    ∃ cs : CoordinateSystem, coordsys_product css = .ok cs
      ∧ cs.coord_names = (css.map CoordinateSystem.coord_names).flatten
      ∧ cs.name = "product"
      ∧ cs.coord_dtype = safe_dtype (css.map CoordinateSystem.coord_dtype) := by
  refine ⟨⟨(css.map CoordinateSystem.coord_names).flatten, "product",
    safe_dtype (css.map CoordinateSystem.coord_dtype)⟩, ?_, rfl, rfl, rfl⟩
  cases css with
  | nil => exact absurd rfl hne
  | cons a l =>
    show CoordinateSystem.mkChecked _ _ _ = _
    rw [CoordinateSystem.mkChecked, if_pos hnd]

theorem product_eq (cmaps : List CMap) (ics ocs : CoordinateSystem)
    (hi : coordsys_product (cmaps.map CMap.input_coords) = .ok ics)
    (ho : coordsys_product (cmaps.map CMap.output_coords) = .ok ocs) :
    product cmaps =
      (if cmaps.all CMap.isAffine then do
        let t ← AffineTransform.create
          (linearize (productFunction cmaps) ics.ndim 1 (zeros ics.ndim))
          ics.coord_dtype ics ocs
        pure (.affine t)
      else
        match CMap.call (.general ⟨productFunction cmaps, ics, ocs, none⟩)
            (zeros ics.ndim) with
        | .ok _ => pure (.general ⟨productFunction cmaps, ics, ocs, none⟩)
        | .error e => .error e) := by
  unfold product
  rw [hi, ho]
  simp only [except_bind_ok]

theorem flatten_ndim (cmaps : List CMap) (p : CMap → CoordinateSystem) (cs : CoordinateSystem)
    (h : cs.coord_names
      = ((cmaps.map p).map CoordinateSystem.coord_names).flatten) :
    cs.ndim = (cmaps.map (fun c => (p c).ndim)).sum := by
  rw [CoordinateSystem.ndim, h, List.length_flatten, List.map_map, List.map_map]
  rfl

theorem prod_dtype_eq (cmaps : List CMap) (hwf : ∀ c ∈ cmaps, c.wf)
    (ha : cmaps.all CMap.isAffine = true) :
    safe_dtype ((cmaps.map CMap.input_coords).map CoordinateSystem.coord_dtype)
      = safe_dtype ((cmaps.map CMap.output_coords).map CoordinateSystem.coord_dtype) := by
  rw [List.map_map, List.map_map]
  exact congrArg safe_dtype (List.map_congr_left
    (fun c hc => affine_dtype_eq (List.all_eq_true.mp ha c hc) (hwf c hc)))

/-- C3 (amended): the source `product` fails whenever the concatenated axis
names repeat (the product coordinate system enforces distinct names), so the
spec's "for every sequence" needs the disjointness proviso.  Under it, for a
nonempty sequence of well-formed transforms, `product` succeeds; the result's
input axes are the concatenation of the operands' input axes in argument
order (so its axis count is the sum of the operands' input axis counts),
likewise for the output axes; and when every operand is an `AffineTransform`
the result is an `AffineTransform` whose matrix is the block-diagonal
combination of the operands' homogeneous matrices. -/
theorem claim_C3_product (cmaps : List CMap) (hne : cmaps ≠ [])
    (hwf : ∀ c ∈ cmaps, c.wf)
    (hin : (((cmaps.map CMap.input_coords).map CoordinateSystem.coord_names).flatten).Nodup)
    (hout : (((cmaps.map CMap.output_coords).map CoordinateSystem.coord_names).flatten).Nodup) :
    ∃ r : CMap, product cmaps = .ok r
      ∧ r.input_coords.coord_names
        = ((cmaps.map CMap.input_coords).map CoordinateSystem.coord_names).flatten
      ∧ r.input_coords.ndim = (cmaps.map (fun c => c.input_coords.ndim)).sum
      ∧ r.output_coords.coord_names
        = ((cmaps.map CMap.output_coords).map CoordinateSystem.coord_names).flatten
      ∧ r.output_coords.ndim = (cmaps.map (fun c => c.output_coords.ndim)).sum
      ∧ (cmaps.all CMap.isAffine = true →
          r.isAffine = true ∧ r.affMat = blockDiagList (cmaps.map CMap.affMat)) := by
  have hmapne : ∀ (p : CMap → CoordinateSystem), cmaps.map p ≠ [] := by
    intro p h
    exact hne (List.map_eq_nil_iff.mp h)
  obtain ⟨ics, hi, hinn, hinm, hind⟩ :=
    coordsys_product_ok _ (hmapne CMap.input_coords) hin
  obtain ⟨ocs, ho, honn, honm, hond⟩ :=
    coordsys_product_ok _ (hmapne CMap.output_coords) hout
  have hni : ics.ndim = (cmaps.map (fun c => c.input_coords.ndim)).sum :=
    flatten_ndim cmaps CMap.input_coords ics hinn
  have hno : ocs.ndim = (cmaps.map (fun c => c.output_coords.ndim)).sum :=
    flatten_ndim cmaps CMap.output_coords ocs honn
  rw [product_eq cmaps ics ocs hi ho]
  cases hA : cmaps.all CMap.isAffine with
  | false =>
    rw [if_neg Bool.false_ne_true]
    have hz : (zeros ics.ndim).length
        = (CMap.general ⟨productFunction cmaps, ics, ocs, none⟩).input_coords.ndim := by
      rw [zeros_length]
      rfl
    have hfl : ((CMap.general ⟨productFunction cmaps, ics, ocs, none⟩).function
          (zeros ics.ndim)).length
        = (CMap.general ⟨productFunction cmaps, ics, ocs, none⟩).output_coords.ndim := by
      show (productFunction cmaps (zeros ics.ndim)).length = ocs.ndim
      rw [productFunction_length cmaps hwf _ (by rw [zeros_length, hni]), hno]
    have hcall := call_ok (.general ⟨productFunction cmaps, ics, ocs, none⟩)
      (zeros ics.ndim) hz hfl
    rw [hcall]
    refine ⟨.general ⟨productFunction cmaps, ics, ocs, none⟩, rfl, hinn, hni, honn, hno, ?_⟩
    intro h
    exact absurd h Bool.false_ne_true
  | true =>
    rw [if_pos rfl]
    obtain ⟨hmwf, hap⟩ := productFunction_affine cmaps hwf hA hne
    have hlin : linearize (productFunction cmaps) ics.ndim 1 (zeros ics.ndim)
        = blockDiagList (cmaps.map CMap.affMat) := by
      rw [hni]
      exact linearize_affine hmwf _ 1 one_ne_zero hap
    have hdt : ics.coord_dtype = ocs.coord_dtype := by
      rw [hind, hond]
      exact prod_dtype_eq cmaps hwf hA
    have hcreate : AffineTransform.create (blockDiagList (cmaps.map CMap.affMat))
        ics.coord_dtype ics ocs
        = .ok ⟨blockDiagList (cmaps.map CMap.affMat), ics, ocs⟩ := by
      rw [hdt]
      exact create_wf_ok _ ics ocs hmwf hno hni hdt
    rw [hlin, hcreate]
    exact ⟨.affine ⟨blockDiagList (cmaps.map CMap.affMat), ics, ocs⟩, rfl, hinn, hni,
      honn, hno, fun _ => ⟨rfl, rfl⟩⟩

theorem claim_C3_counterexample :
    product
      [.affine ⟨[[2, 0], [0, 1]], ⟨["i"], "in", 64⟩, ⟨["x"], "out", 64⟩⟩,
        .affine ⟨[[2, 0], [0, 1]], ⟨["i"], "in", 64⟩, ⟨["x"], "out", 64⟩⟩]
      = .error "coord_names must have distinct names" := rfl

theorem claim_C3_witness :
    (∃ r : CMap,
      product [.affine ⟨[[2, 0], [0, 1]], ⟨["i"], "", 64⟩, ⟨["x"], "", 64⟩⟩,
          .affine ⟨[[4, 0], [0, 1]], ⟨["k"], "", 64⟩, ⟨["z"], "", 64⟩⟩,
          .affine ⟨[[3, 0], [0, 1]], ⟨["j"], "", 64⟩, ⟨["y"], "", 64⟩⟩] = .ok r
      ∧ r.input_coords.coord_names = ["i", "k", "j"]
      ∧ r.input_coords.ndim = 3
      ∧ r.output_coords.coord_names = ["x", "z", "y"]
      ∧ r.output_coords.ndim = 3
      ∧ ([CMap.affine ⟨[[2, 0], [0, 1]], ⟨["i"], "", 64⟩, ⟨["x"], "", 64⟩⟩,
          .affine ⟨[[4, 0], [0, 1]], ⟨["k"], "", 64⟩, ⟨["z"], "", 64⟩⟩,
          .affine ⟨[[3, 0], [0, 1]], ⟨["j"], "", 64⟩, ⟨["y"], "", 64⟩⟩].all CMap.isAffine
            = true →
          r.isAffine = true
          ∧ r.affMat = blockDiagList [[[2, 0], [0, 1]], [[4, 0], [0, 1]], [[3, 0], [0, 1]]]))
    ∧ blockDiagList [[[2, 0], [0, 1]], [[4, 0], [0, 1]], [[3, 0], [0, 1]]]
      = [[2, 0, 0, 0], [0, 4, 0, 0], [0, 0, 3, 0], [0, 0, 0, 1]] :=
  ⟨claim_C3_product
    [.affine ⟨[[2, 0], [0, 1]], ⟨["i"], "", 64⟩, ⟨["x"], "", 64⟩⟩,
      .affine ⟨[[4, 0], [0, 1]], ⟨["k"], "", 64⟩, ⟨["z"], "", 64⟩⟩,
      .affine ⟨[[3, 0], [0, 1]], ⟨["j"], "", 64⟩, ⟨["y"], "", 64⟩⟩]
    (by simp)
    (by
      intro c hc
      simp only [List.mem_cons, List.not_mem_nil, or_false] at hc
      rcases hc with rfl | rfl | rfl <;> exact ⟨by decide, by decide, by decide, by decide⟩)
    (by decide) (by decide), rfl⟩
